import Mathlib

/-!
# Verification of the orgize core parser (src/org.rs)

A shallow embedding of the recursive Org-mode parser of `src/org.rs`.
The input buffer is modelled as a `List Char`, one entry per byte (all
inputs of interest are ASCII, where byte offsets and character indices
coincide).  Each tree node carries the `begin`, `end` and optional
`contents_begin`, `contents_end` offsets of the Rust `Element` variants.
The worklist driver of `Org::parse` populates the children of a container
exactly once, on first visit, in pre-order; this is embedded as a
top-down recursive construction of the tree (the design notes of the
specification state the nested loops are exactly such a pre-order
worklist and bless the recursive reading).

The leaf recognizers (crate `elements`: headline, list, block, drawer,
clock, rule, keyword, emphasis, link, timestamp, ...) are code of this
repository that is not under `src/`; those definitions are modelled from
the specification and marked `Modelled from the spec:` in their doc
comments.  Everything else is translated from `src/org.rs` directly.
-/

namespace Orgize

/-- Left brace character, kept as a named constant. -/
def lbrace : Char := Char.ofNat 123

/-- Right brace character, kept as a named constant. -/
def rbrace : Char := Char.ofNat 125

/-- The NUL character, used as an out-of-range default. -/
def nulChar : Char := Char.ofNat 0

/-- Rust `u8::is_ascii_whitespace` / `char::is_ascii_whitespace`:
space, horizontal tab, line feed, form feed, carriage return.
Vertical tab (0x0B) is not in this set. -/
def isWs (c : Char) : Bool :=
  c = ' ' || c = '\t' || c = '\n' || c = '\x0C' || c = '\x0D'

/-- All characters of the list are ASCII whitespace (Rust `all(u8::is_ascii_whitespace)`). -/
def allWs (s : List Char) : Bool := s.all isWs

/-- The byte at absolute index `i` of the buffer (NUL when out of range). -/
def byteAt (t : List Char) (i : Nat) : Char := t.getD i nulChar

/-- The sub-buffer `[b, e)`, i.e. the Rust slice `&text[b..e]`. -/
def slice (t : List Char) (b e : Nat) : List Char := (t.drop b).take (e - b)

/-- Indices of newline bytes in `s`, ascending (Rust `memchr_iter(b'\n', ...)`). -/
def nlIdx (s : List Char) : List Nat :=
  (List.range s.length).filter (fun i => s.getD i nulChar = '\n')

/-- Forward scan of `skip_empty_lines`: for each newline position `p`
(ascending), while the line `[i, p)` is whitespace-only advance `i` to
`p + 1`, else stop. -/
def selForward (s : List Char) : List Nat → Nat → Nat
  | [], i => i
  | p :: rest, i => if allWs (slice s i p) then selForward s rest (p + 1) else i

/-- Backward scan of `skip_empty_lines`: for each newline position `p`
(descending), while the suffix `[p, j)` is whitespace-only move `j` to
`p`, else stop. -/
def selBackward (s : List Char) : List Nat → Nat → Nat
  | [], j => j
  | p :: rest, j => if allWs (slice s p j) then selBackward s rest p else j

/-- `skip_empty_lines` of `src/org.rs` (lines 652-672): returns `(i, j)`
with `[0, i)` the whitespace-only prefix lines and `[j, len)` the
whitespace-only suffix lines. -/
def skipEmptyLines (s : List Char) : Nat × Nat :=
  (selForward s (nlIdx s) 0, selBackward s (nlIdx s).reverse s.length)

/-- Index of the first character of `l` satisfying `p`, if any. -/
def firstIdx (p : Char → Bool) (l : List Char) : Option Nat :=
  (List.range l.length).find? (fun i => p (l.getD i nulChar))

/-- Offset one past the first newline of `s`, or `s.length` when `s` has
no newline: the end of the first line, newline included. -/
def lineEnd (s : List Char) : Nat :=
  match firstIdx (fun c => c = '\n') s with
  | some i => i + 1
  | none => s.length

/-- The starts of the second and later lines of `s` (one past each newline). -/
def lineStarts2 (s : List Char) : List Nat := (nlIdx s).map (· + 1)

/-- The first position `i` with `from_ ≤ i ≤ s.length` where `pat` is a
prefix of `s.drop i`, if any. -/
def findSub (pat s : List Char) (from_ : Nat) : Option Nat :=
  (List.range (s.length + 1)).find? (fun i => from_ ≤ i && pat.isPrefixOf (s.drop i))

/-- Count of leading stars of a line. -/
def starsOf (s : List Char) : Nat := (s.takeWhile (fun c => c = '*')).length

/-- Modelled from the spec: the headline level of the line starting `s`
(count of leading stars followed by a space, zero when the line is not a
headline).  The recognizer `Headline` lives in the `elements` crate,
which is not under `src/`. -/
def headlineLevel (s : List Char) : Nat :=
  let k := starsOf s
  if 0 < k ∧ s.getD k nulChar = ' ' then k else 0

/-- Modelled from the spec: `Headline::find_level(text, usize::MAX)` —
the offset of the start of the first line of `s` whose headline level is
at least one; when no headline exists everything is section content, so
the whole length is returned. -/
def findLevel (s : List Char) : Nat :=
  match (0 :: lineStarts2 s).find? (fun i => 0 < headlineLevel (s.drop i)) with
  | some i => i
  | none => s.length

/-- Modelled from the spec: `Headline::parse(text, &[])` — returns
`(off, end)` where `off` is the end of the headline line itself and
`end` the end of the whole subtree, i.e. up to but not including the
next headline of the same or a higher level.  The stop-keyword list is
empty at every call site.  Offsets are clamped so that the recognizer
contract `1 ≤ off ≤ end ≤ len` holds on every input. -/
def headlineParse (s : List Char) : Nat × Nat :=
  let off := lineEnd s
  let lv := headlineLevel s
  let ed0 :=
    match (lineStarts2 s).find?
        (fun i => 0 < headlineLevel (s.drop i) ∧ headlineLevel (s.drop i) ≤ lv) with
    | some i => i
    | none => s.length
  let ed := min (max ed0 off) s.length
  (min off ed, ed)

/-- Modelled from the spec: the footnote definition recognizer
`FnDef::parse` — `[fn:LABEL] …` at column zero; returns the offset just
past the closing bracket and the end of the line. -/
def fnDefParse (s : List Char) : Option (Nat × Nat) :=
  if ['[', 'f', 'n', ':'].isPrefixOf s then
    match firstIdx (fun c => c = ']') ((s.take (lineEnd s)).drop 4) with
    | some k => some (4 + k + 1, lineEnd s)
    | none => none
  else none

/-- Leading space count of a line. -/
def indentOf (s : List Char) : Nat := (s.takeWhile (fun c => c = ' ')).length

/-- Modelled from the spec: whether the line starting `s` is a bullet
line — after its indent it begins `- `, `+ `, `* ` (star bullets only
when indented, so they cannot be headlines), or digits followed by `.`
or `)` and a space. -/
def isBulletLine (s : List Char) : Bool :=
  let ind := indentOf s
  let q := s.drop ind
  match q with
  | '-' :: ' ' :: _ => true
  | '+' :: ' ' :: _ => true
  | '*' :: ' ' :: _ => decide (0 < ind)
  | _ =>
    let d := (q.takeWhile (fun c => c.isDigit)).length
    decide (0 < d) && (q.getD d nulChar = '.' || q.getD d nulChar = ')') &&
      q.getD (d + 1) nulChar = ' '

/-- Modelled from the spec: the line scan of the list recognizer.  Walks
the starts of the second and later lines keeping `lim`, the end of the
last line that belongs to the list.  Whitespace-only lines are consumed
without extending `lim`; deeper-indented lines and same-indent bullet
lines extend it; any other line stops the run and is the total end. -/
def listScan (s : List Char) (ind : Nat) : List Nat → Nat → Nat × Nat
  | [], lim => (lim, s.length)
  | i :: rest, lim =>
    let r := s.drop i
    if allWs (r.take (lineEnd r)) then listScan s ind rest lim
    else if ind < indentOf r ∨ (isBulletLine r ∧ indentOf r = ind) then
      listScan s ind rest (i + lineEnd r)
    else (lim, i)

/-- Modelled from the spec: the list recognizer `List::parse` — detects
a run of bullet lines sharing the indent of the first line and returns
the record (here just the common indent), the logical content end
`limit` (excluding trailing blank lines) and the total consumed length
`end` (including them).  Offsets are clamped so that the recognizer
contract `limit ≤ end ≤ len` and `1 ≤ end` holds on every input. -/
def listParse (s : List Char) : Option (Nat × Nat × Nat) :=
  if isBulletLine s then
    let ind := indentOf s
    let res := listScan s ind (lineStarts2 s) (lineEnd s)
    let ed := min (max res.2 (lineEnd s)) s.length
    some (ind, min res.1 ed, ed)
  else none

/-- Modelled from the spec: the byte length of a bullet marker together
with its following space — two for `-`, `+` and `*`, the digit count
plus two for numeric bullets. -/
def bulletLen (q : List Char) : Nat :=
  match q with
  | '-' :: ' ' :: _ => 2
  | '+' :: ' ' :: _ => 2
  | '*' :: ' ' :: _ => 2
  | _ => (q.takeWhile (fun c => c.isDigit)).length + 2

/-- Modelled from the spec: the list-item recognizer
`ListItem::parse(text, indent)` — returns `(off, end)` where `off` is
the offset past the bullet of the first line and `end` the offset of
the next bullet line at the same indent (or the whole length).  Total,
like the Rust recognizer; clamped so that `off ≤ end ≤ len`. -/
def listItemParse (s : List Char) (ind : Nat) : Nat × Nat :=
  let rawOff :=
    if isBulletLine s ∧ indentOf s = ind then ind + bulletLen (s.drop ind)
    else lineEnd s
  let ed0 :=
    match (lineStarts2 s).find?
        (fun i => isBulletLine (s.drop i) ∧ indentOf (s.drop i) = ind) with
    | some i => i
    | none => s.length
  let ed := min (max ed0 (lineEnd s)) s.length
  (min rawOff ed, ed)

/-- Modelled from the spec: the clock recognizer `Clock::parse` — a
`CLOCK:` line; consumes the line. -/
def clockParse (s : List Char) : Option Nat :=
  if ['C', 'L', 'O', 'C', 'K', ':'].isPrefixOf s then some (lineEnd s) else none

/-- Modelled from the spec: the rule recognizer `Rule::parse` — a line
of five or more dashes followed only by whitespace; consumes the line. -/
def ruleParse (s : List Char) : Option Nat :=
  let d := (s.takeWhile (fun c => c = '-')).length
  if 5 ≤ d ∧ allWs ((s.take (lineEnd s)).drop d) then some (lineEnd s) else none

/-- A terminated-container line search: the first start of a second or
later line of `s` whose line is `pat` followed only by whitespace. -/
def findTermLine (s : List Char) (pat : List Char) : Option Nat :=
  (lineStarts2 s).find? (fun i =>
    let l := (s.drop i).take (lineEnd (s.drop i))
    pat.isPrefixOf l && allWs (l.drop pat.length))

/-- The `(off, limit, end)` triple of a container element whose
terminator line starts at `i`: contents begin after the opening line and
stop at `i`; the whole element stops after the terminator line.  Clamped
so that `1 ≤ off ≤ limit ≤ end ≤ len` holds whenever `s` is nonempty. -/
def containerSpans (s : List Char) (i : Nat) : Nat × Nat × Nat :=
  let len := s.length
  let limit := min (max i 1) len
  let ed := min (max (i + lineEnd (s.drop i)) limit) len
  (min (lineEnd s) limit, limit, ed)

/-- Modelled from the spec: the generic block recognizer `Block::parse`
— `#+BEGIN_NAME …` up to a matching `#+END_NAME` line; returns
`(off, limit, end)`. -/
def blockParse (s : List Char) : Option (Nat × Nat × Nat) :=
  if ['#', '+', 'B', 'E', 'G', 'I', 'N', '_'].isPrefixOf s then
    let name := (s.drop 8).takeWhile (fun c => ¬(c = ' ') ∧ ¬(c = '\n'))
    if name.isEmpty then none
    else (findTermLine s (['#', '+', 'E', 'N', 'D', '_'] ++ name)).map (containerSpans s)
  else none

/-- Modelled from the spec: the dynamic block recognizer
`DynBlock::parse` — `#+BEGIN: …` up to a `#+END:` line. -/
def dynBlockParse (s : List Char) : Option (Nat × Nat × Nat) :=
  if ['#', '+', 'B', 'E', 'G', 'I', 'N', ':'].isPrefixOf s then
    (findTermLine s ['#', '+', 'E', 'N', 'D', ':']).map (containerSpans s)
  else none

/-- Modelled from the spec: the drawer recognizer `Drawer::parse` —
`:NAME:` up to a `:END:` line; returns `(off, limit, end)`. -/
def drawerParse (s : List Char) : Option (Nat × Nat × Nat) :=
  if s.getD 0 nulChar = ':' then
    let name := (s.drop 1).takeWhile (fun c => c.isAlphanum ∨ c = '_' ∨ c = '-')
    if name.isEmpty then none
    else if s.getD (1 + name.length) nulChar = ':' then
      (findTermLine s [':', 'E', 'N', 'D', ':']).map (containerSpans s)
    else none
  else none

/-- Modelled from the spec: the keyword recognizer `Keyword::parse` —
`#+KEY: VALUE` on one line; returns the key (for the babel-call check)
and the consumed length. -/
def keywordParse (s : List Char) : Option (List Char × Nat) :=
  if ['#', '+'].isPrefixOf s then
    let key := (s.drop 2).takeWhile (fun c => ¬(c = ':') ∧ ¬(c = '\n') ∧ ¬(c = ' '))
    if s.getD (2 + key.length) nulChar = ':' then some (key, lineEnd s) else none
  else none

/-- Node kinds, the closed set of `Element` variants of the data model. -/
inductive NodeKind where
  | doc | rootK | headlineK | sectionK
  | paragraph | listK | listItem | blockK | dynBlock | drawer
  | clockK | ruleK | fnDef | keywordK | babelCall
  | textK | bold | italic | underline | strike | verbatim | codeK
  | linkK | timestampK | targetK | radioTarget | cookieK | fnRefK
  | snippetK | mcrK | inlineSrc | inlineCall
deriving DecidableEq, Repr

/-- One tree node: kind, full span `[b, e)`, optional contents span
`cs = (contents_begin, contents_end)`, a text payload `val` for the kinds
that carry one (text, verbatim, code), and an auxiliary number `aux`
(the common indent of a list). -/
structure Node where
  kind : NodeKind
  b : Nat
  e : Nat
  cs : Option (Nat × Nat) := none
  val : List Char := []
  aux : Nat := 0
deriving DecidableEq, Repr

/-- Modelled from the spec: the post-delimiter byte set that may close an
emphasis run (the emphasis grammar is outside the spec scope; this is
the conventional Org set). -/
def postDelim (c : Char) : Bool :=
  c = ' ' || c = '-' || c = '.' || c = ',' || c = ':' || c = ';' || c = '!' ||
    c = '?' || c = ')' || c = rbrace || c = '"' || c = '\n'

/-- Modelled from the spec: the emphasis recognizer
`emphasis::parse(text, marker)` — the first byte is the marker, the
second is not whitespace, and a closing marker is found at an index of
at least two, preceded by a non-whitespace byte and followed by the end
of the region or a post-delimiter.  Returns the consumed length, one
past the closing marker. -/
def emphasisParse (s : List Char) (m : Char) : Option Nat :=
  if s.getD 0 nulChar = m ∧ ¬ isWs (s.getD 1 nulChar) = true then
    match (List.range s.length).find? (fun j =>
        2 ≤ j ∧ s.getD j nulChar = m ∧ ¬ isWs (s.getD (j - 1) nulChar) = true ∧
          (j + 1 = s.length ∨ postDelim (s.getD (j + 1) nulChar) = true)) with
    | some j => some (j + 1)
    | none => none
  else none

/-- Modelled from the spec: the snippet recognizer `Snippet::parse` —
`@@NAME:VALUE@@`. -/
def snippetParse (s : List Char) : Option Nat :=
  if ['@', '@'].isPrefixOf s then
    let name := (s.drop 2).takeWhile (fun c => c.isAlphanum ∨ c = '-')
    if ¬ name.isEmpty ∧ s.getD (2 + name.length) nulChar = ':' then
      (findSub ['@', '@'] s (3 + name.length)).map (· + 2)
    else none
  else none

/-- Modelled from the spec: the macro-call recognizer `Macros::parse` —
three opening braces, a name, arguments, three closing braces. -/
def mcrParse (s : List Char) : Option Nat :=
  if [lbrace, lbrace, lbrace].isPrefixOf s then
    (findSub [rbrace, rbrace, rbrace] s 3).map (· + 3)
  else none

/-- Modelled from the spec: the radio-target recognizer
`RadioTarget::parse` — `<<<target>>>`. -/
def radioTargetParse (s : List Char) : Option Nat :=
  if ['<', '<', '<'].isPrefixOf s then
    (findSub ['>', '>', '>'] s 3).map (· + 3)
  else none

/-- Modelled from the spec: the target recognizer `Target::parse` —
`<<target>>`. -/
def targetParse (s : List Char) : Option Nat :=
  if ['<', '<'].isPrefixOf s then (findSub ['>', '>'] s 2).map (· + 2) else none

/-- Modelled from the spec: the active timestamp recognizer
`Timestamp::parse_active` — `<…>` closed before the end of the line. -/
def tsActiveParse (s : List Char) : Option Nat :=
  if s.getD 0 nulChar = '<' then
    match firstIdx (fun c => c = '>' || c = '\n') (s.drop 1) with
    | some k => if (s.drop 1).getD k nulChar = '>' then some (k + 2) else none
    | none => none
  else none

/-- Modelled from the spec: the diary timestamp recognizer
`Timestamp::parse_diary` — `<%%(…)>`. -/
def tsDiaryParse (s : List Char) : Option Nat :=
  if ['<', '%', '%', '('].isPrefixOf s then
    (findSub [')', '>'] s 4).map (· + 2)
  else none

/-- Modelled from the spec: the inactive timestamp recognizer
`Timestamp::parse_inactive` — `[…]` closed before the end of the line. -/
def tsInactiveParse (s : List Char) : Option Nat :=
  if s.getD 0 nulChar = '[' then
    match firstIdx (fun c => c = ']' || c = '\n') (s.drop 1) with
    | some k => if (s.drop 1).getD k nulChar = ']' then some (k + 2) else none
    | none => none
  else none

/-- Modelled from the spec: the statistics cookie recognizer
`Cookie::parse` — `[n/m]` or `[n%]`. -/
def cookieParse (s : List Char) : Option Nat :=
  if s.getD 0 nulChar = '[' then
    let d1 := ((s.drop 1).takeWhile (fun c => c.isDigit)).length
    if s.getD (1 + d1) nulChar = '%' ∧ s.getD (2 + d1) nulChar = ']' then
      some (3 + d1)
    else if s.getD (1 + d1) nulChar = '/' then
      let d2 := ((s.drop (2 + d1)).takeWhile (fun c => c.isDigit)).length
      if s.getD (2 + d1 + d2) nulChar = ']' then some (3 + d1 + d2) else none
    else none
  else none

/-- Modelled from the spec: the footnote reference recognizer
`FnRef::parse` — `[fn:…]` closed before the end of the line. -/
def fnRefParse (s : List Char) : Option Nat :=
  if ['[', 'f', 'n', ':'].isPrefixOf s then
    match firstIdx (fun c => c = ']' || c = '\n') (s.drop 4) with
    | some k => if (s.drop 4).getD k nulChar = ']' then some (k + 5) else none
    | none => none
  else none

/-- Modelled from the spec: the link recognizer `Link::parse` —
`[[target]…]` closed by a double bracket. -/
def linkParse (s : List Char) : Option Nat :=
  if ['[', '['].isPrefixOf s then (findSub [']', ']'] s 2).map (· + 2) else none

/-- Modelled from the spec: the inline source recognizer
`InlineSrc::parse` — `src_LANG{BODY}`. -/
def inlineSrcParse (s : List Char) : Option Nat :=
  if ['s', 'r', 'c', '_'].isPrefixOf s then
    let lang := (s.drop 4).takeWhile (fun c => c.isAlphanum ∨ c = '-')
    if ¬ lang.isEmpty ∧ s.getD (4 + lang.length) nulChar = lbrace then
      match firstIdx (fun c => c = rbrace || c = '\n') (s.drop (5 + lang.length)) with
      | some k =>
        if (s.drop (5 + lang.length)).getD k nulChar = rbrace then
          some (5 + lang.length + k + 1)
        else none
      | none => none
    else none
  else none

/-- Modelled from the spec: the inline babel call recognizer
`InlineCall::parse` — `call_NAME(ARGS)`. -/
def inlineCallParse (s : List Char) : Option Nat :=
  if ['c', 'a', 'l', 'l', '_'].isPrefixOf s then
    let name := (s.drop 5).takeWhile (fun c => c.isAlphanum ∨ c = '-')
    if ¬ name.isEmpty ∧ s.getD (5 + name.length) nulChar = '(' then
      match firstIdx (fun c => c = ')' || c = '\n') (s.drop (6 + name.length)) with
      | some k =>
        if (s.drop (6 + name.length)).getD k nulChar = ')' then
          some (6 + name.length + k + 1)
        else none
      | none => none
    else none
  else none

/-- `Org::parse_object` (src/org.rs lines 426-632) over an explicit
slice `s` starting at absolute offset `b`: first-byte dispatch over the
object recognizers.  Regions shorter than three bytes hold no object.
Returns the node and its consumed length. -/
def parseObjectCore (b : Nat) (s : List Char) : Option (Node × Nat) :=
  if s.length < 3 then none
  else if s.getD 0 nulChar = '@' ∧ s.getD 1 nulChar = '@' then
    (snippetParse s).map (fun off => ({ kind := .snippetK, b := b, e := b + off }, off))
  else if s.getD 0 nulChar = lbrace ∧ s.getD 1 nulChar = lbrace ∧
      s.getD 2 nulChar = lbrace then
    (mcrParse s).map (fun off => ({ kind := .mcrK, b := b, e := b + off }, off))
  else if s.getD 0 nulChar = '<' ∧ s.getD 1 nulChar = '<' then
    if s.getD 2 nulChar = '<' then
      (radioTargetParse s).map (fun off =>
        ({ kind := .radioTarget, b := b, e := b + off }, off))
    else
      (targetParse s).map (fun off => ({ kind := .targetK, b := b, e := b + off }, off))
  else if s.getD 0 nulChar = '<' then
    ((tsActiveParse s).orElse (fun _ => tsDiaryParse s)).map (fun off =>
      ({ kind := .timestampK, b := b, e := b + off }, off))
  else if s.getD 0 nulChar = '[' then
    if ['f', 'n', ':'].isPrefixOf (s.drop 1) then
      (fnRefParse s).map (fun off => ({ kind := .fnRefK, b := b, e := b + off }, off))
    else if s.getD 1 nulChar = '[' then
      (linkParse s).map (fun off => ({ kind := .linkK, b := b, e := b + off }, off))
    else
      ((cookieParse s).map (fun off =>
          ({ kind := .cookieK, b := b, e := b + off }, off))).orElse (fun _ =>
        (tsInactiveParse s).map (fun off =>
          ({ kind := .timestampK, b := b, e := b + off }, off)))
  else if s.getD 0 nulChar = '*' then
    (emphasisParse s '*').map (fun off =>
      ({ kind := .bold, b := b, e := b + off, cs := some (b + 1, b + off - 1) }, off))
  else if s.getD 0 nulChar = '+' then
    (emphasisParse s '+').map (fun off =>
      ({ kind := .strike, b := b, e := b + off, cs := some (b + 1, b + off - 1) }, off))
  else if s.getD 0 nulChar = '/' then
    (emphasisParse s '/').map (fun off =>
      ({ kind := .italic, b := b, e := b + off, cs := some (b + 1, b + off - 1) }, off))
  else if s.getD 0 nulChar = '_' then
    (emphasisParse s '_').map (fun off =>
      ({ kind := .underline, b := b, e := b + off, cs := some (b + 1, b + off - 1) }, off))
  else if s.getD 0 nulChar = '=' then
    (emphasisParse s '=').map (fun off =>
      ({ kind := .verbatim, b := b, e := b + off, val := (s.take (off - 1)).drop 1 }, off))
  else if s.getD 0 nulChar = '~' then
    (emphasisParse s '~').map (fun off =>
      ({ kind := .codeK, b := b, e := b + off, val := (s.take (off - 1)).drop 1 }, off))
  else if ['s', 'r', 'c', '_'].isPrefixOf s then
    (inlineSrcParse s).map (fun off =>
      ({ kind := .inlineSrc, b := b, e := b + off }, off))
  else if ['c', 'a', 'l', 'l', '_'].isPrefixOf s then
    (inlineCallParse s).map (fun off =>
      ({ kind := .inlineCall, b := b, e := b + off }, off))
  else none

/-- `Org::parse_object` (src/org.rs lines 426-632): the object
dispatcher over the region `[b, e)`. -/
def parseObject (t : List Char) (b e : Nat) : Option (Node × Nat) :=
  parseObjectCore b (slice t b e)

/-- The whitespace skip of `Org::parse_element` (src/org.rs line 243):
the index of the first non-whitespace byte of the first line,
`unwrap_or(0)` when the whole slice is whitespace. -/
def wsOffset (s : List Char) : Nat :=
  match firstIdx (fun c => ¬ isWs c = true) s with
  | some i => i
  | none => 0

/-- The element dispatch after the whitespace skip of
`Org::parse_element`: tries clock, rule, drawer, block, dynamic block
and keyword on the tail `tl` beginning `lb` bytes into the region. -/
def parseElementTail (b lb : Nat) (tl : List Char) : Option (Node × Nat) :=
  match clockParse tl with
  | some ed => some ({ kind := .clockK, b := b, e := b + lb + ed }, lb + ed)
  | none =>
  match ruleParse tl with
  | some ed => some ({ kind := .ruleK, b := b, e := b + lb + ed }, lb + ed)
  | none =>
  match drawerParse tl with
  | some (off, limit, ed) =>
    some ({ kind := .drawer, b := b, e := b + lb + ed,
            cs := some (b + lb + off, b + lb + limit) }, lb + ed)
  | none =>
  match blockParse tl with
  | some (off, limit, ed) =>
    some ({ kind := .blockK, b := b, e := b + lb + ed,
            cs := some (b + lb + off, b + lb + limit) }, lb + ed)
  | none =>
  match dynBlockParse tl with
  | some (off, limit, ed) =>
    some ({ kind := .dynBlock, b := b, e := b + lb + ed,
            cs := some (b + lb + off, b + lb + limit) }, lb + ed)
  | none =>
  match keywordParse tl with
  | some (key, ed) =>
    if key.map Char.toUpper = ['C', 'A', 'L', 'L'] then
      some ({ kind := .babelCall, b := b, e := b + lb + ed }, lb + ed)
    else
      some ({ kind := .keywordK, b := b, e := b + lb + ed }, lb + ed)
  | none => none

/-- `Org::parse_element` (src/org.rs lines 220-347) over an explicit
slice `s` starting at absolute offset `b`: the element dispatcher.
Tries the footnote definition and list recognizers at the position
itself, then the post-whitespace recognizers on the tail.  The
fixed-width, comment and LaTeX environment hooks of the source are
unimplemented there and recognize nothing. -/
def parseElementCore (b : Nat) (s : List Char) : Option (Node × Nat) :=
  match fnDefParse s with
  | some (off, ed) =>
    some ({ kind := .fnDef, b := b, e := b + ed, cs := some (b + off, b + ed) }, ed)
  | none =>
  match listParse s with
  | some (ind, limit, ed) =>
    some ({ kind := .listK, b := b, e := b + ed, cs := some (b, b + limit), aux := ind }, ed)
  | none => parseElementTail b (wsOffset s) (s.drop (wsOffset s))

/-- `Org::parse_element` (src/org.rs lines 220-347): the element
dispatcher over the region `[b, e)`. -/
def parseElement (t : List Char) (b e : Nat) : Option (Node × Nat) :=
  parseElementCore b (slice t b e)

/-- The pre-delimiter byte set of the inline walker (src/org.rs line
354): `{`, space, `"`, `,`, `(`, newline. -/
def preDelim (c : Char) : Bool :=
  c = lbrace || c = ' ' || c = '"' || c = ',' || c = '(' || c = '\n'

/-- The byte set of the inline fallback scan (src/org.rs line 378):
`@`, space, `"`, `(`, newline, `{`, `<`, `[` — note that `,` is not in
this set although it is a pre-delimiter. -/
def isBsByte (c : Char) : Bool :=
  c = '@' || c = ' ' || c = '"' || c = '(' || c = '\n' || c = lbrace ||
    c = '<' || c = '['

/-- Offsets (relative to `b`) of the fallback-scan bytes in `[b, e)`. -/
def bsIdx (t : List Char) (b e : Nat) : List Nat :=
  (List.range (e - b)).filter (fun p => isBsByte (byteAt t (b + p)))

/-- One hit of the fallback scan of `parse_objects_children` (src/org.rs
lines 378-414): the prepended `Text` node, the object node, and the new
walker position. -/
def objScanGo (t : List Char) (b e : Nat) : List Nat → Option (Node × Node × Nat)
  | [] => none
  | p :: rest =>
    if preDelim (byteAt t (b + p)) then
      match parseObject t (b + p + 1) e with
      | some (nd, off) =>
        some ({ kind := .textK, b := b, e := e, val := slice t b (b + p + 1) }, nd,
          b + p + 1 + off)
      | none => objScanGo t b e rest
    else
      match parseObject t (b + p) e with
      | some (nd, off) =>
        some ({ kind := .textK, b := b, e := e, val := slice t b (b + p) }, nd,
          b + p + off)
      | none => objScanGo t b e rest

/-- `Org::parse_objects_children` (src/org.rs lines 349-424): the inline
walker.  At a pre-delimiter byte an object is tried one byte later and,
on success, a `Text` node carrying just that byte is emitted before it
(its recorded span still runs to the end of the region, as in the
source); otherwise an object is tried in place; otherwise the fallback
scan looks for the next candidate byte; when nothing matches the
remainder becomes a single `Text` node.  `fuel` bounds the number of
iterations of the outer loop. -/
def objectsWalk (t : List Char) : Nat → Nat → Nat → List Node
  | 0, _, _ => []
  | fuel + 1, b, e =>
    if b < e then
      let c := byteAt t b
      let step : Option (List Node × Nat) :=
        if preDelim c then
          match parseObject t (b + 1) e with
          | some (nd, off) =>
            some ([{ kind := .textK, b := b, e := e, val := [c] }, nd], b + 1 + off)
          | none => none
        else
          match parseObject t b e with
          | some (nd, off) => some ([nd], b + off)
          | none => none
      match step with
      | some (nds, b2) => nds ++ objectsWalk t fuel b2 e
      | none =>
        match objScanGo t b e (bsIdx t b e) with
        | some (tnd, ond, b2) => tnd :: ond :: objectsWalk t fuel b2 e
        | none => [{ kind := .textK, b := b, e := e, val := slice t b e }]
    else []

/-- The outcome of the line scan inside the block walker: a blank line
found at `[pos, i)`, or a direct element parse succeeding at `pos`. -/
inductive ParaHit where
  | blank (i pos : Nat)
  | elem (pos : Nat) (nd : Node) (off : Nat)
deriving Repr

/-- The line scan of `parse_elements_children` (src/org.rs lines
180-207): walk the newline offsets of the region slice keeping `pos`,
the start of the current line; report the first whitespace-only line or
the first later position where a direct element parse succeeds. -/
def paraScan (t : List Char) (b e : Nat) : List Nat → Nat → Option ParaHit
  | [], _ => none
  | i :: rest, pos =>
    if allWs (slice t (b + pos) (b + i)) then some (.blank i pos)
    else
      match parseElement t (b + pos) e with
      | some (nd, off) => some (.elem pos nd off)
      | none => paraScan t b e rest (i + 1)

/-- `Org::parse_elements_children` (src/org.rs lines 169-218): the block
walker.  Try a direct element parse at the position; otherwise scan
lines for a blank line (emit a paragraph whose contents stop at the
blank line start, consuming the following empty lines) or a later
element start (emit a paragraph up to it, then the element); otherwise
the remainder is one paragraph whose contents exclude a single trailing
newline.  `fuel` bounds the number of iterations. -/
def elementsWalk (t : List Char) : Nat → Nat → Nat → List Node
  | 0, _, _ => []
  | fuel + 1, b, e =>
    if b < e then
      match parseElement t b e with
      | some (nd, off) => nd :: elementsWalk t fuel (b + off) e
      | none =>
        let s := slice t b e
        match paraScan t b e (nlIdx s) 0 with
        | some (.blank i pos) =>
          let sk := (skipEmptyLines (s.drop i)).1
          { kind := .paragraph, b := b, e := b + i + sk, cs := some (b, b + pos) } ::
            elementsWalk t fuel (b + i + sk) e
        | some (.elem pos nd off) =>
          { kind := .paragraph, b := b, e := b + pos, cs := some (b, b + pos) } ::
            nd :: elementsWalk t fuel (b + pos + off) e
        | none =>
          [{ kind := .paragraph, b := b, e := e,
             cs := some (b, if s.getLast? = some '\n' then e - 1 else e) }]
    else []

/-- The headline loop of `Org::parse` (src/org.rs lines 76-88): while
the region is nonempty, parse one headline subtree and emit a `Headline`
node whose contents run from the end of the headline line to the end of
the subtree. -/
def headlinesLoop (t : List Char) : Nat → Nat → Nat → List Node
  | 0, _, _ => []
  | fuel + 1, b, e =>
    if b < e then
      let oe := headlineParse (slice t b e)
      { kind := .headlineK, b := b, e := b + oe.2, cs := some (b + oe.1, b + oe.2) } ::
        headlinesLoop t fuel (b + oe.2) e
    else []

/-- The headline walker of `Org::parse` (src/org.rs lines 53-88): find
the first headline; when content precedes it, emit a `Section` whose
contents are trimmed by `skip_empty_lines`; then run the headline loop. -/
def headlineWalk (t : List Char) (fuel b e : Nat) : List Node :=
  if b < e then
    let off := findLevel (slice t b e)
    if off ≠ 0 then
      let p := skipEmptyLines (slice t b (b + off))
      { kind := .sectionK, b := b, e := b + off, cs := some (b + p.1, b + p.2) } ::
        headlinesLoop t fuel (b + off) e
    else headlinesLoop t fuel b e
  else []

/-- `Org::parse_list_items` (src/org.rs lines 634-649): split the list
contents region into `ListItem` nodes at the common indent. -/
def listItemsWalk (t : List Char) (ind : Nat) : Nat → Nat → Nat → List Node
  | 0, _, _ => []
  | fuel + 1, b, e =>
    if b < e then
      let oe := listItemParse (slice t b e) ind
      { kind := .listItem, b := b, e := b + oe.2, cs := some (b + oe.1, b + oe.2) } ::
        listItemsWalk t ind fuel (b + oe.2) e
    else []

/-- The region a container node hands to its walker: the full span for
`Document`, the contents span for every other container. -/
def walkRegion (nd : Node) : Nat × Nat :=
  match nd.kind with
  | .doc => (nd.b, nd.e)
  | .headlineK | .sectionK | .blockK | .listItem | .paragraph
  | .bold | .italic | .underline | .strike | .listK =>
    match nd.cs with
    | some p => p
    | none => (nd.b, nd.b)
  | _ => (nd.b, nd.b)

/-- The dispatch of the worklist driver (src/org.rs lines 52-143): which
walker populates the children of a node of each kind.  `Block` contents
are walked as elements regardless of the block type; footnote
definitions, drawers and dynamic blocks are never descended into. -/
def childrenOf (t : List Char) (nd : Node) : List Node :=
  let r := walkRegion nd
  match nd.kind with
  | .doc | .headlineK => headlineWalk t (r.2 - r.1) r.1 r.2
  | .sectionK | .blockK | .listItem => elementsWalk t (r.2 - r.1) r.1 r.2
  | .paragraph | .bold | .italic | .underline | .strike =>
    objectsWalk t (r.2 - r.1) r.1 r.2
  | .listK => listItemsWalk t nd.aux (r.2 - r.1) r.1 r.2
  | _ => []

/-- The parse tree: a node and its ordered children. -/
inductive Tree where
  | mk (nd : Node) (children : List Tree)

/-- The node at the root of a subtree. -/
def rootND : Tree → Node
  | .mk nd _ => nd

/-- The immediate subtrees. -/
def childrenT : Tree → List Tree
  | .mk _ cs => cs

/-- The driver as a top-down recursion: populate a node, then recurse
into each freshly created child.  `fuel` bounds the recursion depth. -/
def build (t : List Char) : Nat → Node → Tree
  | 0, nd => .mk nd []
  | fuel + 1, nd => .mk nd ((childrenOf t nd).map (build t fuel))

/-- The `Document` node created by `Org::new` (src/org.rs lines 16-29). -/
def docNode (t : List Char) : Node := { kind := .doc, b := 0, e := t.length }

/-- Depth fuel sufficient for any input, proved so by `build_stable`. -/
def buildFuel (t : List Char) : Nat := 4 * t.length + 4

/-- The tree below `Document` after `Org::parse` has run to completion. -/
def orgTree (t : List Char) : Tree := build t (buildFuel t) (docNode t)

/-- The parser state: the borrowed buffer, the children of the
`Document` arena node, the count of `Root` nodes allocated in the arena,
and the `root` field of the `Org` struct (src/org.rs lines 8-13). -/
structure Org where
  text : List Char
  docChildren : List Tree
  rootCount : Nat
  root : Option Nat

/-- `Org::new` (src/org.rs lines 16-29): a lone `Document` node, no
`Root`, `root` unset. -/
def orgNew (t : List Char) : Org :=
  { text := t, docChildren := [], rootCount := 0, root := none }

/-- `Org::finish` (src/org.rs lines 31-33): whether `Document` has a
first child. -/
def orgFinish (o : Org) : Bool := !o.docChildren.isEmpty

/-- `Org::parse` (src/org.rs lines 45-151): a no-op when `finish()`
already holds, otherwise the worklist driver populates the tree under
`Document`. -/
def orgParse (o : Org) : Org :=
  if orgFinish o then o else { o with docChildren := childrenT (orgTree o.text) }

/-- `Org::iter` (src/org.rs lines 35-43): when `self.root` is set, reuse
it; otherwise allocate a fresh `Root` arena node and append `Document`
under it.  The source never assigns `self.root`, so the field stays as
constructed. -/
def orgIter (o : Org) : Org :=
  match o.root with
  | some _ => o
  | none => { o with rootCount := o.rootCount + 1 }

mutual

/-- Every node of a tree, in pre-order. -/
def allNodesT : Tree → List Node
  | .mk nd children => nd :: allNodesL children

/-- Every node of a forest, in pre-order. -/
def allNodesL : List Tree → List Node
  | [] => []
  | c :: cs => allNodesT c ++ allNodesL cs

end

mutual

/-- Every subtree of a tree, in pre-order. -/
def subtreesT : Tree → List Tree
  | .mk nd children => .mk nd children :: subtreesL children

/-- Every subtree of a forest, in pre-order. -/
def subtreesL : List Tree → List Tree
  | [] => []
  | c :: cs => subtreesT c ++ subtreesL cs

end

/-- The subtree reached by a path of child indices. -/
def treeAt : List Nat → Tree → Option Tree
  | [], st => some st
  | i :: rest, st =>
    match (childrenT st)[i]? with
    | some c => treeAt rest c
    | none => none

/-- The node at a path of child indices. -/
def nodeAt (st : Tree) (path : List Nat) : Option Node := (treeAt path st).map rootND

/-- The kinds of the children of the node at a path. -/
def kindsBelow (st : Tree) (path : List Nat) : Option (List NodeKind) :=
  (treeAt path st).map (fun u => (childrenT u).map (fun c => (rootND c).kind))

/-- The `(begin, end)` spans of the children of the node at a path. -/
def spansBelow (st : Tree) (path : List Nat) : Option (List (Nat × Nat)) :=
  (treeAt path st).map (fun u => (childrenT u).map (fun c => ((rootND c).b, (rootND c).e)))

/-- Whether the contents span of a node is ordered (`cb ≤ ce`). -/
def csOrdered (nd : Node) : Bool :=
  match nd.cs with
  | some (cb, ce) => cb ≤ ce
  | none => true

/-- Whether consecutive spans of a list do not overlap. -/
def spansSeparated : List (Nat × Nat) → Bool
  | [] => true
  | [_] => true
  | x :: y :: rest => x.2 ≤ y.1 && spansSeparated (y :: rest)

/-- The contents span of a node, when present, sits inside its full
span, is ordered except possibly on a `Section`, and the full span sits
inside the buffer. -/
def csWithin (nd : Node) : Prop :=
  ∀ cb ce, nd.cs = some (cb, ce) →
    nd.b ≤ cb ∧ cb ≤ nd.e ∧ nd.b ≤ ce ∧ ce ≤ nd.e ∧
      (nd.kind ≠ .sectionK → cb ≤ ce)

/-- Well-formedness of one node against a buffer length. -/
def ndOk (n : Nat) (nd : Node) : Prop := nd.b ≤ nd.e ∧ nd.e ≤ n ∧ csWithin nd

/-- The rank of a kind in the termination measure: how many walker
phases may run over a region of unchanged length below a node of this
kind. -/
def rankOf : NodeKind → Nat
  | .doc | .headlineK => 3
  | .sectionK | .blockK | .listItem => 2
  | .paragraph | .bold | .italic | .underline | .strike | .listK => 1
  | _ => 0

/-- The termination measure of a node: four times the walked region
length plus the rank; it strictly decreases from parent to child. -/
def measureOf (nd : Node) : Nat :=
  4 * ((walkRegion nd).2 - (walkRegion nd).1) + rankOf nd.kind

/-- The child-ordering relation of claim C3: begins are non-decreasing. -/
def ordRel (x y : Node) : Prop := x.b ≤ y.b

/-- The child-separation relation of claim C3: a child ends before the
next begins, except a `Text` node emitted before a recognized object,
whose recorded end is the contents-region end `re`. -/
def sepRel (re : Nat) (x y : Node) : Prop :=
  x.e ≤ y.b ∨ (x.kind = .textK ∧ x.e = re)

/-- The concrete input of claim C1, `#+BEGIN_SRC rust…`. -/
def c1Input : List Char :=
  "#+BEGIN_SRC rust\nfn main()".toList ++ [lbrace, rbrace] ++ "\n#+END_SRC\n".toList

/-- The concrete input of claim C2: a blank line before a headline. -/
def c2Input : List Char := "\n* H".toList

/-- The concrete input of claim C3: bold emphasis inside a paragraph. -/
def c3Input : List Char := "x *b* y".toList

/-- The concrete input of claim C4, two paragraphs split by one blank
line. -/
def c4Input : List Char := "Para one.\n\nPara two.\n".toList

/-- The vertical tab byte 0x0B. -/
def vtab : Char := Char.ofNat 11

/-- The concrete input of claim C6: a line holding only a vertical tab. -/
def c6vInput : List Char := "a\n".toList ++ [vtab] ++ "\nb\n".toList

/-- A companion input for claim C6: a line holding only a horizontal
tab. -/
def c6tInput : List Char := "a\n\t\nb\n".toList

/-- The contents region of the paragraph of claim C7: a pre-delimiter
space followed by bold emphasis. -/
def c7Input : List Char := " *b* x".toList

theorem slice_length (t : List Char) (b e : Nat) :
    (slice t b e).length = min (e - b) (t.length - b) := by
  simp [slice]

theorem slice_length_le (t : List Char) (b e : Nat) :
    (slice t b e).length ≤ e - b := by
  rw [slice_length]; omega

theorem slice_length_eq {t : List Char} {b e : Nat} (h : e ≤ t.length) :
    (slice t b e).length = e - b := by
  rw [slice_length]; omega

theorem firstIdx_some {p : Char → Bool} {l : List Char} {i : Nat}
    (h : firstIdx p l = some i) : i < l.length ∧ p (l.getD i nulChar) = true := by
  refine ⟨List.mem_range.mp (List.mem_of_find?_eq_some h), ?_⟩
  have := List.find?_some h
  simpa using this

theorem lineEnd_le (s : List Char) : lineEnd s ≤ s.length := by
  unfold lineEnd
  split
  · next i hi => have := (firstIdx_some hi).1; omega
  · exact le_rfl

theorem lineEnd_pos {s : List Char} (h : 0 < s.length) : 1 ≤ lineEnd s := by
  unfold lineEnd
  split
  · omega
  · omega

theorem mem_nlIdx {s : List Char} {i : Nat} (h : i ∈ nlIdx s) :
    i < s.length ∧ s.getD i nulChar = '\n' := by
  have := List.mem_filter.mp h
  refine ⟨List.mem_range.mp this.1, ?_⟩
  simpa using this.2

theorem nlIdx_pairwise (s : List Char) : (nlIdx s).Pairwise (· < ·) :=
  (List.pairwise_lt_range s.length).filter _

theorem mem_lineStarts2 {s : List Char} {i : Nat} (h : i ∈ lineStarts2 s) :
    1 ≤ i ∧ i ≤ s.length := by
  unfold lineStarts2 at h
  obtain ⟨p, hp, rfl⟩ := List.mem_map.mp h
  have := (mem_nlIdx hp).1
  omega

theorem findSub_some {pat s : List Char} {k j : Nat}
    (h : findSub pat s k = some j) : k ≤ j ∧ j + pat.length ≤ s.length := by
  have hmem := List.mem_range.mp (List.mem_of_find?_eq_some h)
  have hp := List.find?_some h
  simp only [Bool.and_eq_true, decide_eq_true_eq] at hp
  have hpre : pat.length ≤ (s.drop j).length :=
    (List.isPrefixOf_iff_prefix.mp hp.2).length_le
  rw [List.length_drop] at hpre
  exact ⟨hp.1, by omega⟩

theorem isPrefixOf_length_le {l₁ l₂ : List Char} (h : l₁.isPrefixOf l₂ = true) :
    l₁.length ≤ l₂.length :=
  (List.isPrefixOf_iff_prefix.mp h).length_le

theorem takeWhile_length_le (p : Char → Bool) (l : List Char) :
    (l.takeWhile p).length ≤ l.length :=
  List.Sublist.length_le (List.takeWhile_sublist p)

theorem selForward_le_len {s : List Char} :
    ∀ (l : List Nat) (acc : Nat), (∀ p ∈ l, p < s.length) → acc ≤ s.length →
      selForward s l acc ≤ s.length
  | [], acc, _, hacc => hacc
  | p :: rest, acc, hl, hacc => by
    unfold selForward
    split
    · exact selForward_le_len rest (p + 1) (fun q hq => hl q (by simp [hq]))
        (hl p (by simp))
    · exact hacc

theorem selBackward_le_len {s : List Char} :
    ∀ (l : List Nat) (acc : Nat), (∀ p ∈ l, p < s.length) → acc ≤ s.length →
      selBackward s l acc ≤ s.length
  | [], acc, _, hacc => hacc
  | p :: rest, acc, hl, hacc => by
    unfold selBackward
    split
    · exact selBackward_le_len rest p (fun q hq => hl q (by simp [hq]))
        (le_of_lt (hl p (by simp)))
    · exact hacc

theorem selForward_pos {s : List Char} :
    ∀ (l : List Nat) (acc : Nat), 1 ≤ acc → 1 ≤ selForward s l acc
  | [], _, hacc => hacc
  | p :: rest, acc, hacc => by
    unfold selForward
    split
    · exact selForward_pos rest (p + 1) (by omega)
    · exact hacc

theorem skipEmptyLines_le (s : List Char) :
    (skipEmptyLines s).1 ≤ s.length ∧ (skipEmptyLines s).2 ≤ s.length := by
  constructor
  · exact selForward_le_len (nlIdx s) 0 (fun p hp => (mem_nlIdx hp).1) (by omega)
  · exact selBackward_le_len (nlIdx s).reverse s.length
      (fun p hp => (mem_nlIdx (List.mem_reverse.mp hp)).1) le_rfl

theorem skipEmptyLines_fst_pos {s : List Char} (h0 : s.getD 0 nulChar = '\n')
    (hlen : 0 < s.length) : 1 ≤ (skipEmptyLines s).1 := by
  have h0mem : 0 ∈ nlIdx s :=
    List.mem_filter.mpr ⟨List.mem_range.mpr hlen,
      by simp only [decide_eq_true_eq]; exact h0⟩
  show 1 ≤ selForward s (nlIdx s) 0
  cases hn : nlIdx s with
  | nil => rw [hn] at h0mem; simp at h0mem
  | cons p rest =>
    have hpw := nlIdx_pairwise s
    rw [hn] at h0mem hpw
    have hp0 : p = 0 := by
      rcases List.mem_cons.mp h0mem with h | h
      · omega
      · have := (List.pairwise_cons.mp hpw).1 0 h; omega
    subst hp0
    unfold selForward
    have hws : allWs (slice s 0 0) = true := by simp [slice, allWs]
    rw [if_pos hws]
    exact selForward_pos rest 1 le_rfl

theorem fnDefParse_spec {s : List Char} {off ed : Nat}
    (h : fnDefParse s = some (off, ed)) :
    1 ≤ off ∧ off ≤ ed ∧ ed ≤ s.length := by
  unfold fnDefParse at h
  split at h
  · split at h
    · next k hk =>
      simp only [Option.some.injEq, Prod.mk.injEq] at h
      obtain ⟨h1, h2⟩ := h
      have hb := (firstIdx_some hk).1
      rw [List.length_drop, List.length_take] at hb
      have hle := lineEnd_le s
      omega
    · exact absurd h (by simp)
  · exact absurd h (by simp)

theorem isBulletLine_length_pos {s : List Char} (h : isBulletLine s = true) :
    0 < s.length := by
  by_contra hc
  have hnil : s = [] := by
    cases s with
    | nil => rfl
    | cons a l => simp at hc
  subst hnil
  simp [isBulletLine, indentOf] at h

theorem listParse_spec {s : List Char} {ind limit ed : Nat}
    (h : listParse s = some (ind, limit, ed)) :
    1 ≤ ed ∧ limit ≤ ed ∧ ed ≤ s.length := by
  unfold listParse at h
  split at h
  · next hb =>
    have hp : 0 < s.length := isBulletLine_length_pos hb
    have h1 := lineEnd_pos hp
    have h2 := lineEnd_le s
    simp only [Option.some.injEq, Prod.mk.injEq] at h
    obtain ⟨-, hl, he⟩ := h
    omega
  · exact absurd h (by simp)

theorem two_le_bulletLen (q : List Char) : 2 ≤ bulletLen q := by
  unfold bulletLen
  split <;> omega

theorem listItemParse_spec (s : List Char) (ind : Nat) (hp : 0 < s.length) :
    1 ≤ (listItemParse s ind).1 ∧
      (listItemParse s ind).1 ≤ (listItemParse s ind).2 ∧
      (listItemParse s ind).2 ≤ s.length := by
  unfold listItemParse
  have h1 := lineEnd_pos hp
  have h2 := lineEnd_le s
  have h3 := two_le_bulletLen (s.drop ind)
  dsimp only
  split <;> omega

theorem clockParse_spec {s : List Char} {ed : Nat} (h : clockParse s = some ed) :
    1 ≤ ed ∧ ed ≤ s.length := by
  unfold clockParse at h
  split at h
  · next hpre =>
    simp only [Option.some.injEq] at h
    have hlen := isPrefixOf_length_le hpre
    simp only [List.length_cons, List.length_nil] at hlen
    have := lineEnd_le s
    have := lineEnd_pos (s := s) (by omega)
    omega
  · exact absurd h (by simp)

theorem ruleParse_spec {s : List Char} {ed : Nat} (h : ruleParse s = some ed) :
    1 ≤ ed ∧ ed ≤ s.length := by
  unfold ruleParse at h
  dsimp only at h
  split at h
  · next hc =>
    simp only [Option.some.injEq] at h
    have hd := takeWhile_length_le (fun c => decide (c = '-')) s
    have := lineEnd_le s
    have := lineEnd_pos (s := s) (by omega)
    omega
  · exact absurd h (by simp)

theorem containerSpans_spec {s : List Char} (hp : 0 < s.length) (i : Nat) :
    1 ≤ (containerSpans s i).1 ∧
      (containerSpans s i).1 ≤ (containerSpans s i).2.1 ∧
      (containerSpans s i).2.1 ≤ (containerSpans s i).2.2 ∧
      (containerSpans s i).2.2 ≤ s.length := by
  unfold containerSpans
  have h1 := lineEnd_pos hp
  have h2 := lineEnd_le s
  dsimp only
  omega

theorem blockParse_spec {s : List Char} {off limit ed : Nat}
    (h : blockParse s = some (off, limit, ed)) :
    1 ≤ off ∧ off ≤ limit ∧ limit ≤ ed ∧ ed ≤ s.length := by
  unfold blockParse at h
  split at h
  · next hpre =>
    have hlen := isPrefixOf_length_le hpre
    simp only [List.length_cons, List.length_nil] at hlen
    dsimp only at h
    split at h
    · exact absurd h (by simp)
    · rw [Option.map_eq_some'] at h
      obtain ⟨i, -, hi⟩ := h
      have := containerSpans_spec (s := s) (by omega) i
      rw [hi] at this
      exact this
  · exact absurd h (by simp)

theorem dynBlockParse_spec {s : List Char} {off limit ed : Nat}
    (h : dynBlockParse s = some (off, limit, ed)) :
    1 ≤ off ∧ off ≤ limit ∧ limit ≤ ed ∧ ed ≤ s.length := by
  unfold dynBlockParse at h
  split at h
  · next hpre =>
    have hlen := isPrefixOf_length_le hpre
    simp only [List.length_cons, List.length_nil] at hlen
    rw [Option.map_eq_some'] at h
    obtain ⟨i, -, hi⟩ := h
    have := containerSpans_spec (s := s) (by omega) i
    rw [hi] at this
    exact this
  · exact absurd h (by simp)

theorem drawerParse_spec {s : List Char} {off limit ed : Nat}
    (h : drawerParse s = some (off, limit, ed)) :
    1 ≤ off ∧ off ≤ limit ∧ limit ≤ ed ∧ ed ≤ s.length := by
  unfold drawerParse at h
  split at h
  · next hc =>
    have hp : 0 < s.length := by
      by_contra hcon
      have : s = [] := by
        cases s with
        | nil => rfl
        | cons a l => simp at hcon
      rw [this] at hc
      simp [nulChar] at hc
    dsimp only at h
    split at h
    · exact absurd h (by simp)
    · split at h
      · rw [Option.map_eq_some'] at h
        obtain ⟨i, -, hi⟩ := h
        have := containerSpans_spec hp i
        rw [hi] at this
        exact this
      · exact absurd h (by simp)
  · exact absurd h (by simp)

theorem keywordParse_spec {s : List Char} {key : List Char} {ed : Nat}
    (h : keywordParse s = some (key, ed)) : 1 ≤ ed ∧ ed ≤ s.length := by
  unfold keywordParse at h
  dsimp only at h
  split at h
  · next hpre =>
    have hlen := isPrefixOf_length_le hpre
    simp only [List.length_cons, List.length_nil] at hlen
    split at h
    · simp only [Option.some.injEq, Prod.mk.injEq] at h
      have := lineEnd_le s
      have := lineEnd_pos (s := s) (by omega)
      omega
    · exact absurd h (by simp)
  · exact absurd h (by simp)

theorem headlineParse_spec (s : List Char) (hp : 0 < s.length) :
    1 ≤ (headlineParse s).1 ∧ (headlineParse s).1 ≤ (headlineParse s).2 ∧
      (headlineParse s).2 ≤ s.length := by
  unfold headlineParse
  have h1 := lineEnd_pos hp
  have h2 := lineEnd_le s
  dsimp only
  omega

theorem findLevel_le (s : List Char) : findLevel s ≤ s.length := by
  unfold findLevel
  split
  · next i hi =>
    have := List.mem_of_find?_eq_some hi
    rcases List.mem_cons.mp this with h | h
    · omega
    · exact (mem_lineStarts2 h).2
  · exact le_rfl

theorem getD_ne_imp_lt {l : List Char} {i : Nat} {c : Char}
    (h : l.getD i nulChar = c) (hc : c ≠ nulChar) : i < l.length := by
  by_contra hcon
  rw [List.getD_eq_default _ _ (by omega)] at h
  exact hc h.symm

theorem snippetParse_spec {s : List Char} {off : Nat}
    (h : snippetParse s = some off) : 1 ≤ off ∧ off ≤ s.length := by
  unfold snippetParse at h
  split at h
  · dsimp only at h
    split at h
    · rw [Option.map_eq_some'] at h
      obtain ⟨j, hj, he⟩ := h
      have := (findSub_some hj).2
      simp only [List.length_cons, List.length_nil] at this
      omega
    · exact absurd h (by simp)
  · exact absurd h (by simp)

theorem mcrParse_spec {s : List Char} {off : Nat}
    (h : mcrParse s = some off) : 1 ≤ off ∧ off ≤ s.length := by
  unfold mcrParse at h
  split at h
  · rw [Option.map_eq_some'] at h
    obtain ⟨j, hj, he⟩ := h
    have := (findSub_some hj).2
    simp only [List.length_cons, List.length_nil] at this
    omega
  · exact absurd h (by simp)

theorem radioTargetParse_spec {s : List Char} {off : Nat}
    (h : radioTargetParse s = some off) : 1 ≤ off ∧ off ≤ s.length := by
  unfold radioTargetParse at h
  split at h
  · rw [Option.map_eq_some'] at h
    obtain ⟨j, hj, he⟩ := h
    have := (findSub_some hj).2
    simp only [List.length_cons, List.length_nil] at this
    omega
  · exact absurd h (by simp)

theorem targetParse_spec {s : List Char} {off : Nat}
    (h : targetParse s = some off) : 1 ≤ off ∧ off ≤ s.length := by
  unfold targetParse at h
  split at h
  · rw [Option.map_eq_some'] at h
    obtain ⟨j, hj, he⟩ := h
    have := (findSub_some hj).2
    simp only [List.length_cons, List.length_nil] at this
    omega
  · exact absurd h (by simp)

theorem tsActiveParse_spec {s : List Char} {off : Nat}
    (h : tsActiveParse s = some off) : 1 ≤ off ∧ off ≤ s.length := by
  unfold tsActiveParse at h
  split at h
  · split at h
    · next k hk =>
      split at h
      · simp only [Option.some.injEq] at h
        have := (firstIdx_some hk).1
        rw [List.length_drop] at this
        omega
      · exact absurd h (by simp)
    · exact absurd h (by simp)
  · exact absurd h (by simp)

theorem tsDiaryParse_spec {s : List Char} {off : Nat}
    (h : tsDiaryParse s = some off) : 1 ≤ off ∧ off ≤ s.length := by
  unfold tsDiaryParse at h
  split at h
  · rw [Option.map_eq_some'] at h
    obtain ⟨j, hj, he⟩ := h
    have := (findSub_some hj).2
    simp only [List.length_cons, List.length_nil] at this
    omega
  · exact absurd h (by simp)

theorem tsInactiveParse_spec {s : List Char} {off : Nat}
    (h : tsInactiveParse s = some off) : 1 ≤ off ∧ off ≤ s.length := by
  unfold tsInactiveParse at h
  split at h
  · split at h
    · next k hk =>
      split at h
      · simp only [Option.some.injEq] at h
        have := (firstIdx_some hk).1
        rw [List.length_drop] at this
        omega
      · exact absurd h (by simp)
    · exact absurd h (by simp)
  · exact absurd h (by simp)

theorem cookieParse_spec {s : List Char} {off : Nat}
    (h : cookieParse s = some off) : 1 ≤ off ∧ off ≤ s.length := by
  unfold cookieParse at h
  split at h
  · dsimp only at h
    split at h
    · next hc =>
      simp only [Option.some.injEq] at h
      have := getD_ne_imp_lt hc.2 (by decide)
      omega
    · split at h
      · split at h
        · next hc =>
          simp only [Option.some.injEq] at h
          have := getD_ne_imp_lt hc (by decide)
          omega
        · exact absurd h (by simp)
      · exact absurd h (by simp)
  · exact absurd h (by simp)

theorem fnRefParse_spec {s : List Char} {off : Nat}
    (h : fnRefParse s = some off) : 1 ≤ off ∧ off ≤ s.length := by
  unfold fnRefParse at h
  split at h
  · split at h
    · next k hk =>
      split at h
      · simp only [Option.some.injEq] at h
        have := (firstIdx_some hk).1
        rw [List.length_drop] at this
        omega
      · exact absurd h (by simp)
    · exact absurd h (by simp)
  · exact absurd h (by simp)

theorem linkParse_spec {s : List Char} {off : Nat}
    (h : linkParse s = some off) : 1 ≤ off ∧ off ≤ s.length := by
  unfold linkParse at h
  split at h
  · rw [Option.map_eq_some'] at h
    obtain ⟨j, hj, he⟩ := h
    have := (findSub_some hj).2
    simp only [List.length_cons, List.length_nil] at this
    omega
  · exact absurd h (by simp)

theorem inlineSrcParse_spec {s : List Char} {off : Nat}
    (h : inlineSrcParse s = some off) : 1 ≤ off ∧ off ≤ s.length := by
  unfold inlineSrcParse at h
  split at h
  · dsimp only at h
    split at h
    · split at h
      · next k hk =>
        split at h
        · simp only [Option.some.injEq] at h
          have := (firstIdx_some hk).1
          rw [List.length_drop] at this
          omega
        · exact absurd h (by simp)
      · exact absurd h (by simp)
    · exact absurd h (by simp)
  · exact absurd h (by simp)

theorem inlineCallParse_spec {s : List Char} {off : Nat}
    (h : inlineCallParse s = some off) : 1 ≤ off ∧ off ≤ s.length := by
  unfold inlineCallParse at h
  split at h
  · dsimp only at h
    split at h
    · split at h
      · next k hk =>
        split at h
        · simp only [Option.some.injEq] at h
          have := (firstIdx_some hk).1
          rw [List.length_drop] at this
          omega
        · exact absurd h (by simp)
      · exact absurd h (by simp)
    · exact absurd h (by simp)
  · exact absurd h (by simp)

theorem emphasisParse_spec {s : List Char} {m : Char} {off : Nat}
    (h : emphasisParse s m = some off) : 3 ≤ off ∧ off ≤ s.length := by
  unfold emphasisParse at h
  split at h
  · split at h
    · next j hj =>
      simp only [Option.some.injEq] at h
      have hmem := List.mem_range.mp (List.mem_of_find?_eq_some hj)
      have hp := List.find?_some hj
      simp only [decide_eq_true_eq] at hp
      omega
    · exact absurd h (by simp)
  · exact absurd h (by simp)

theorem orElse_eq_some {α : Type} {x : Option α} {f : Unit → Option α} {a : α}
    (h : (x.orElse f) = some a) : x = some a ∨ (x = none ∧ f () = some a) := by
  cases x <;> simp_all [Option.orElse]

theorem parseObjectCore_spec {b : Nat} {s : List Char} {nd : Node} {off : Nat}
    (h : parseObjectCore b s = some (nd, off)) :
    1 ≤ off ∧ off ≤ s.length ∧ nd.b = b ∧ nd.e = b + off ∧ csWithin nd ∧
      measureOf nd < 4 * s.length := by
  unfold parseObjectCore at h
  by_cases h0 : s.length < 3
  · rw [if_pos h0] at h
    exact absurd h (by simp)
  rw [if_neg h0] at h
  by_cases h1 : s.getD 0 nulChar = '@' ∧ s.getD 1 nulChar = '@'
  · rw [if_pos h1] at h
    rw [Option.map_eq_some'] at h
    obtain ⟨a, ha, he⟩ := h
    injection he with hn ho
    subst ho; subst hn
    have hr := snippetParse_spec ha
    refine ⟨by omega, by omega, rfl, rfl, ?_, ?_⟩
    · intro cb ce hcs
      exact absurd hcs (by simp)
    · simp only [measureOf, walkRegion, rankOf]
      omega
  rw [if_neg h1] at h
  by_cases h2 : s.getD 0 nulChar = lbrace ∧ s.getD 1 nulChar = lbrace ∧
      s.getD 2 nulChar = lbrace
  · rw [if_pos h2] at h
    rw [Option.map_eq_some'] at h
    obtain ⟨a, ha, he⟩ := h
    injection he with hn ho
    subst ho; subst hn
    have hr := mcrParse_spec ha
    refine ⟨by omega, by omega, rfl, rfl, ?_, ?_⟩
    · intro cb ce hcs
      exact absurd hcs (by simp)
    · simp only [measureOf, walkRegion, rankOf]
      omega
  rw [if_neg h2] at h
  by_cases h3 : s.getD 0 nulChar = '<' ∧ s.getD 1 nulChar = '<'
  · rw [if_pos h3] at h
    by_cases h3c : s.getD 2 nulChar = '<'
    · rw [if_pos h3c] at h
      rw [Option.map_eq_some'] at h
      obtain ⟨a, ha, he⟩ := h
      injection he with hn ho
      subst ho; subst hn
      have hr := radioTargetParse_spec ha
      refine ⟨by omega, by omega, rfl, rfl, ?_, ?_⟩
      · intro cb ce hcs
        exact absurd hcs (by simp)
      · simp only [measureOf, walkRegion, rankOf]
        omega
    · rw [if_neg h3c] at h
      rw [Option.map_eq_some'] at h
      obtain ⟨a, ha, he⟩ := h
      injection he with hn ho
      subst ho; subst hn
      have hr := targetParse_spec ha
      refine ⟨by omega, by omega, rfl, rfl, ?_, ?_⟩
      · intro cb ce hcs
        exact absurd hcs (by simp)
      · simp only [measureOf, walkRegion, rankOf]
        omega
  rw [if_neg h3] at h
  by_cases h4 : s.getD 0 nulChar = '<'
  · rw [if_pos h4] at h
    rw [Option.map_eq_some'] at h
    obtain ⟨a, ha, he⟩ := h
    injection he with hn ho
    subst ho; subst hn
    have hr : 1 ≤ a ∧ a ≤ s.length := by
      rcases orElse_eq_some ha with h' | ⟨-, h'⟩
      · exact tsActiveParse_spec h'
      · exact tsDiaryParse_spec h'
    refine ⟨by omega, by omega, rfl, rfl, ?_, ?_⟩
    · intro cb ce hcs
      exact absurd hcs (by simp)
    · simp only [measureOf, walkRegion, rankOf]
      omega
  rw [if_neg h4] at h
  by_cases h5 : s.getD 0 nulChar = '['
  · rw [if_pos h5] at h
    by_cases h5f : ['f', 'n', ':'].isPrefixOf (s.drop 1) = true
    · rw [if_pos h5f] at h
      rw [Option.map_eq_some'] at h
      obtain ⟨a, ha, he⟩ := h
      injection he with hn ho
      subst ho; subst hn
      have hr := fnRefParse_spec ha
      refine ⟨by omega, by omega, rfl, rfl, ?_, ?_⟩
      · intro cb ce hcs
        exact absurd hcs (by simp)
      · simp only [measureOf, walkRegion, rankOf]
        omega
    · rw [if_neg h5f] at h
      by_cases h5l : s.getD 1 nulChar = '['
      · rw [if_pos h5l] at h
        rw [Option.map_eq_some'] at h
        obtain ⟨a, ha, he⟩ := h
        injection he with hn ho
        subst ho; subst hn
        have hr := linkParse_spec ha
        refine ⟨by omega, by omega, rfl, rfl, ?_, ?_⟩
        · intro cb ce hcs
          exact absurd hcs (by simp)
        · simp only [measureOf, walkRegion, rankOf]
          omega
      · rw [if_neg h5l] at h
        rcases orElse_eq_some h with h' | ⟨-, h'⟩
        · rw [Option.map_eq_some'] at h'
          obtain ⟨a, ha, he⟩ := h'
          injection he with hn ho
          subst ho; subst hn
          have hr := cookieParse_spec ha
          refine ⟨by omega, by omega, rfl, rfl, ?_, ?_⟩
          · intro cb ce hcs
            exact absurd hcs (by simp)
          · simp only [measureOf, walkRegion, rankOf]
            omega
        · obtain ⟨a, ha, he⟩ := Option.map_eq_some'.mp h'
          injection he with hn ho
          subst ho; subst hn
          have hr := tsInactiveParse_spec ha
          refine ⟨by omega, by omega, rfl, rfl, ?_, ?_⟩
          · intro cb ce hcs
            exact absurd hcs (by simp)
          · simp only [measureOf, walkRegion, rankOf]
            omega
  rw [if_neg h5] at h
  by_cases h6 : s.getD 0 nulChar = '*'
  · rw [if_pos h6] at h
    rw [Option.map_eq_some'] at h
    obtain ⟨a, ha, he⟩ := h
    injection he with hn ho
    subst ho; subst hn
    have hr := emphasisParse_spec ha
    refine ⟨by omega, by omega, rfl, rfl, ?_, ?_⟩
    · intro cb ce hcs
      simp only [Option.some.injEq, Prod.mk.injEq] at hcs
      obtain ⟨hc1, hc2⟩ := hcs
      subst hc1; subst hc2
      dsimp only
      refine ⟨by omega, by omega, by omega, by omega, fun _ => by omega⟩
    · simp only [measureOf, walkRegion, rankOf]
      omega
  rw [if_neg h6] at h
  by_cases h7 : s.getD 0 nulChar = '+'
  · rw [if_pos h7] at h
    rw [Option.map_eq_some'] at h
    obtain ⟨a, ha, he⟩ := h
    injection he with hn ho
    subst ho; subst hn
    have hr := emphasisParse_spec ha
    refine ⟨by omega, by omega, rfl, rfl, ?_, ?_⟩
    · intro cb ce hcs
      simp only [Option.some.injEq, Prod.mk.injEq] at hcs
      obtain ⟨hc1, hc2⟩ := hcs
      subst hc1; subst hc2
      dsimp only
      refine ⟨by omega, by omega, by omega, by omega, fun _ => by omega⟩
    · simp only [measureOf, walkRegion, rankOf]
      omega
  rw [if_neg h7] at h
  by_cases h8 : s.getD 0 nulChar = '/'
  · rw [if_pos h8] at h
    rw [Option.map_eq_some'] at h
    obtain ⟨a, ha, he⟩ := h
    injection he with hn ho
    subst ho; subst hn
    have hr := emphasisParse_spec ha
    refine ⟨by omega, by omega, rfl, rfl, ?_, ?_⟩
    · intro cb ce hcs
      simp only [Option.some.injEq, Prod.mk.injEq] at hcs
      obtain ⟨hc1, hc2⟩ := hcs
      subst hc1; subst hc2
      dsimp only
      refine ⟨by omega, by omega, by omega, by omega, fun _ => by omega⟩
    · simp only [measureOf, walkRegion, rankOf]
      omega
  rw [if_neg h8] at h
  by_cases h9 : s.getD 0 nulChar = '_'
  · rw [if_pos h9] at h
    rw [Option.map_eq_some'] at h
    obtain ⟨a, ha, he⟩ := h
    injection he with hn ho
    subst ho; subst hn
    have hr := emphasisParse_spec ha
    refine ⟨by omega, by omega, rfl, rfl, ?_, ?_⟩
    · intro cb ce hcs
      simp only [Option.some.injEq, Prod.mk.injEq] at hcs
      obtain ⟨hc1, hc2⟩ := hcs
      subst hc1; subst hc2
      dsimp only
      refine ⟨by omega, by omega, by omega, by omega, fun _ => by omega⟩
    · simp only [measureOf, walkRegion, rankOf]
      omega
  rw [if_neg h9] at h
  by_cases h10 : s.getD 0 nulChar = '='
  · rw [if_pos h10] at h
    rw [Option.map_eq_some'] at h
    obtain ⟨a, ha, he⟩ := h
    injection he with hn ho
    subst ho; subst hn
    have hr := emphasisParse_spec ha
    refine ⟨by omega, by omega, rfl, rfl, ?_, ?_⟩
    · intro cb ce hcs
      exact absurd hcs (by simp)
    · simp only [measureOf, walkRegion, rankOf]
      omega
  rw [if_neg h10] at h
  by_cases h11 : s.getD 0 nulChar = '~'
  · rw [if_pos h11] at h
    rw [Option.map_eq_some'] at h
    obtain ⟨a, ha, he⟩ := h
    injection he with hn ho
    subst ho; subst hn
    have hr := emphasisParse_spec ha
    refine ⟨by omega, by omega, rfl, rfl, ?_, ?_⟩
    · intro cb ce hcs
      exact absurd hcs (by simp)
    · simp only [measureOf, walkRegion, rankOf]
      omega
  rw [if_neg h11] at h
  by_cases h12 : ['s', 'r', 'c', '_'].isPrefixOf s = true
  · rw [if_pos h12] at h
    rw [Option.map_eq_some'] at h
    obtain ⟨a, ha, he⟩ := h
    injection he with hn ho
    subst ho; subst hn
    have hr := inlineSrcParse_spec ha
    refine ⟨by omega, by omega, rfl, rfl, ?_, ?_⟩
    · intro cb ce hcs
      exact absurd hcs (by simp)
    · simp only [measureOf, walkRegion, rankOf]
      omega
  rw [if_neg h12] at h
  by_cases h13 : ['c', 'a', 'l', 'l', '_'].isPrefixOf s = true
  · rw [if_pos h13] at h
    rw [Option.map_eq_some'] at h
    obtain ⟨a, ha, he⟩ := h
    injection he with hn ho
    subst ho; subst hn
    have hr := inlineCallParse_spec ha
    refine ⟨by omega, by omega, rfl, rfl, ?_, ?_⟩
    · intro cb ce hcs
      exact absurd hcs (by simp)
    · simp only [measureOf, walkRegion, rankOf]
      omega
  rw [if_neg h13] at h
  exact absurd h (by simp)

theorem parseObject_spec {t : List Char} {b e : Nat} {nd : Node} {off : Nat}
    (h : parseObject t b e = some (nd, off)) :
    1 ≤ off ∧ off ≤ e - b ∧ nd.b = b ∧ nd.e = b + off ∧ csWithin nd ∧
      measureOf nd < 4 * (e - b) := by
  have hc := parseObjectCore_spec (h := h)
  have hsl := slice_length_le t b e
  exact ⟨by omega, by omega, hc.2.2.1, hc.2.2.2.1, hc.2.2.2.2.1, by omega⟩

theorem wsOffset_le (s : List Char) : wsOffset s ≤ s.length := by
  unfold wsOffset
  split
  · next i hi => exact le_of_lt (firstIdx_some hi).1
  · omega

theorem parseElementTail_spec {b lb : Nat} {tl : List Char} {nd : Node} {off : Nat}
    (h : parseElementTail b lb tl = some (nd, off)) :
    lb + 1 ≤ off ∧ off ≤ lb + tl.length ∧ nd.b = b ∧ nd.e = b + off ∧
      csWithin nd ∧ measureOf nd < 4 * (off - lb) := by
  unfold parseElementTail at h
  split at h
  · next ed hck =>
    simp only [Option.some.injEq, Prod.mk.injEq] at h
    obtain ⟨hn, ho⟩ := h
    subst ho; subst hn
    have hr := clockParse_spec hck
    refine ⟨by omega, by omega, rfl, by dsimp only; omega, ?_, ?_⟩
    · intro cb ce hcs
      exact absurd hcs (by simp)
    · simp only [measureOf, walkRegion, rankOf]
      omega
  · split at h
    · next ed hrl =>
      simp only [Option.some.injEq, Prod.mk.injEq] at h
      obtain ⟨hn, ho⟩ := h
      subst ho; subst hn
      have hr := ruleParse_spec hrl
      refine ⟨by omega, by omega, rfl, by dsimp only; omega, ?_, ?_⟩
      · intro cb ce hcs
        exact absurd hcs (by simp)
      · simp only [measureOf, walkRegion, rankOf]
        omega
    · split at h
      · next off2 limit ed hdr =>
        simp only [Option.some.injEq, Prod.mk.injEq] at h
        obtain ⟨hn, ho⟩ := h
        subst ho; subst hn
        have hr := drawerParse_spec hdr
        refine ⟨by omega, by omega, rfl, by dsimp only; omega, ?_, ?_⟩
        · intro cb ce hcs
          simp only [Option.some.injEq, Prod.mk.injEq] at hcs
          obtain ⟨hc1, hc2⟩ := hcs
          subst hc1; subst hc2
          dsimp only
          refine ⟨by omega, by omega, by omega, by omega, fun _ => by omega⟩
        · simp only [measureOf, walkRegion, rankOf]
          omega
      · split at h
        · next off2 limit ed hbk =>
          simp only [Option.some.injEq, Prod.mk.injEq] at h
          obtain ⟨hn, ho⟩ := h
          subst ho; subst hn
          have hr := blockParse_spec hbk
          refine ⟨by omega, by omega, rfl, by dsimp only; omega, ?_, ?_⟩
          · intro cb ce hcs
            simp only [Option.some.injEq, Prod.mk.injEq] at hcs
            obtain ⟨hc1, hc2⟩ := hcs
            subst hc1; subst hc2
            dsimp only
            refine ⟨by omega, by omega, by omega, by omega, fun _ => by omega⟩
          · simp only [measureOf, walkRegion, rankOf]
            omega
        · split at h
          · next off2 limit ed hdy =>
            simp only [Option.some.injEq, Prod.mk.injEq] at h
            obtain ⟨hn, ho⟩ := h
            subst ho; subst hn
            have hr := dynBlockParse_spec hdy
            refine ⟨by omega, by omega, rfl, by dsimp only; omega, ?_, ?_⟩
            · intro cb ce hcs
              simp only [Option.some.injEq, Prod.mk.injEq] at hcs
              obtain ⟨hc1, hc2⟩ := hcs
              subst hc1; subst hc2
              dsimp only
              refine ⟨by omega, by omega, by omega, by omega, fun _ => by omega⟩
            · simp only [measureOf, walkRegion, rankOf]
              omega
          · split at h
            · next key ed hkw =>
              have hr := keywordParse_spec hkw
              split at h
              · simp only [Option.some.injEq, Prod.mk.injEq] at h
                obtain ⟨hn, ho⟩ := h
                subst ho; subst hn
                refine ⟨by omega, by omega, rfl, by dsimp only; omega, ?_, ?_⟩
                · intro cb ce hcs
                  exact absurd hcs (by simp)
                · simp only [measureOf, walkRegion, rankOf]
                  omega
              · simp only [Option.some.injEq, Prod.mk.injEq] at h
                obtain ⟨hn, ho⟩ := h
                subst ho; subst hn
                refine ⟨by omega, by omega, rfl, by dsimp only; omega, ?_, ?_⟩
                · intro cb ce hcs
                  exact absurd hcs (by simp)
                · simp only [measureOf, walkRegion, rankOf]
                  omega
            · exact absurd h (by simp)

theorem parseElementCore_spec {b : Nat} {s : List Char} {nd : Node} {off : Nat}
    (h : parseElementCore b s = some (nd, off)) :
    1 ≤ off ∧ off ≤ s.length ∧ nd.b = b ∧ nd.e = b + off ∧ csWithin nd ∧
      measureOf nd < 4 * off + 2 := by
  unfold parseElementCore at h
  split at h
  · next off2 ed hfd =>
    simp only [Option.some.injEq, Prod.mk.injEq] at h
    obtain ⟨hn, ho⟩ := h
    subst ho; subst hn
    have hr := fnDefParse_spec hfd
    refine ⟨by omega, by omega, rfl, rfl, ?_, ?_⟩
    · intro cb ce hcs
      simp only [Option.some.injEq, Prod.mk.injEq] at hcs
      obtain ⟨hc1, hc2⟩ := hcs
      subst hc1; subst hc2
      dsimp only
      refine ⟨by omega, by omega, by omega, by omega, fun _ => by omega⟩
    · simp only [measureOf, walkRegion, rankOf]
      omega
  · split at h
    · next ind limit ed hls =>
      simp only [Option.some.injEq, Prod.mk.injEq] at h
      obtain ⟨hn, ho⟩ := h
      subst ho; subst hn
      have hr := listParse_spec hls
      refine ⟨by omega, by omega, rfl, rfl, ?_, ?_⟩
      · intro cb ce hcs
        simp only [Option.some.injEq, Prod.mk.injEq] at hcs
        obtain ⟨hc1, hc2⟩ := hcs
        subst hc1; subst hc2
        dsimp only
        refine ⟨by omega, by omega, by omega, by omega, fun _ => by omega⟩
      · simp only [measureOf, walkRegion, rankOf]
        omega
    · have hr := parseElementTail_spec h
      have hws := wsOffset_le s
      rw [List.length_drop] at hr
      exact ⟨by omega, by omega, hr.2.2.1, hr.2.2.2.1, hr.2.2.2.2.1, by omega⟩

theorem parseElement_spec {t : List Char} {b e : Nat} {nd : Node} {off : Nat}
    (h : parseElement t b e = some (nd, off)) :
    1 ≤ off ∧ off ≤ e - b ∧ nd.b = b ∧ nd.e = b + off ∧ csWithin nd ∧
      measureOf nd < 4 * (e - b) + 2 := by
  have hc := parseElementCore_spec (h := h)
  have hsl := slice_length_le t b e
  exact ⟨by omega, by omega, hc.2.2.1, hc.2.2.2.1, hc.2.2.2.2.1, by omega⟩

theorem csWithin_of_none {nd : Node} (h : nd.cs = none) : csWithin nd := by
  intro cb ce hcs
  rw [h] at hcs
  exact absurd hcs (by simp)

theorem measureOf_textK {nd : Node} (h : nd.kind = .textK) : measureOf nd = 0 := by
  simp [measureOf, walkRegion, rankOf, h]

theorem mem_bsIdx {t : List Char} {b e p : Nat} (h : p ∈ bsIdx t b e) :
    p < e - b := by
  have := List.mem_filter.mp h
  exact List.mem_range.mp this.1

theorem objScanGo_spec {t : List Char} {b e : Nat} :
    ∀ (l : List Nat) {tnd ond : Node} {b2 : Nat}, (∀ p ∈ l, p < e - b) →
      objScanGo t b e l = some (tnd, ond, b2) →
      tnd.kind = .textK ∧ tnd.b = b ∧ tnd.e = e ∧ tnd.cs = none ∧
        b ≤ ond.b ∧ ond.b ≤ ond.e ∧ ond.e = b2 ∧ b + 1 ≤ b2 ∧ b2 ≤ e ∧
        csWithin ond ∧ measureOf ond < 4 * (e - b)
  | [], _, _, _, _, h => absurd h (by simp [objScanGo])
  | p :: rest, tnd, ond, b2, hl, h => by
    have hp : p < e - b := hl p (by simp)
    unfold objScanGo at h
    split at h
    · split at h
      · next nd1 off hpo =>
        simp only [Option.some.injEq, Prod.mk.injEq] at h
        obtain ⟨ht, ho2, hb⟩ := h
        subst ht; subst ho2; subst hb
        have hs := parseObject_spec hpo
        refine ⟨rfl, rfl, rfl, rfl, by omega, by omega, by omega, by omega,
          by omega, hs.2.2.2.2.1, by omega⟩
      · exact objScanGo_spec rest (fun q hq => hl q (by simp [hq])) h
    · split at h
      · next nd1 off hpo =>
        simp only [Option.some.injEq, Prod.mk.injEq] at h
        obtain ⟨ht, ho2, hb⟩ := h
        subst ht; subst ho2; subst hb
        have hs := parseObject_spec hpo
        refine ⟨rfl, rfl, rfl, rfl, by omega, by omega, by omega, by omega,
          by omega, hs.2.2.2.2.1, by omega⟩
      · exact objScanGo_spec rest (fun q hq => hl q (by simp [hq])) h

theorem objectsWalk_zero_or_done {t : List Char} {f b e : Nat} (h : ¬ b < e) :
    objectsWalk t f b e = [] := by
  cases f with
  | zero => rfl
  | succ f => simp [objectsWalk, h]

theorem objectsWalk_mem (t : List Char) :
    ∀ (f b e : Nat) (nd : Node), nd ∈ objectsWalk t f b e →
      b ≤ nd.b ∧ nd.b ≤ nd.e ∧ nd.e ≤ e ∧ csWithin nd ∧
        measureOf nd < 4 * (e - b) + 1
  | 0, b, e, nd, hmem => absurd hmem (by simp [objectsWalk])
  | f + 1, b, e, nd, hmem => by
    unfold objectsWalk at hmem
    by_cases hbe : b < e
    swap
    · rw [if_neg hbe] at hmem
      exact absurd hmem (by simp)
    rw [if_pos hbe] at hmem
    dsimp only at hmem
    by_cases hpd : preDelim (byteAt t b) = true
    · rw [if_pos hpd] at hmem
      rcases hpo : parseObject t (b + 1) e with - | ⟨nd1, off⟩
      · rw [hpo] at hmem
        dsimp only at hmem
        rcases hsg : objScanGo t b e (bsIdx t b e) with - | ⟨tnd, ond, b2⟩
        · rw [hsg] at hmem
          dsimp only at hmem
          simp only [List.mem_singleton] at hmem
          subst hmem
          refine ⟨le_rfl, by dsimp only; omega, by dsimp only; omega,
            csWithin_of_none rfl, ?_⟩
          simp only [measureOf, walkRegion, rankOf]
          omega
        · rw [hsg] at hmem
          dsimp only at hmem
          have hs := objScanGo_spec (bsIdx t b e) (fun p hp => mem_bsIdx hp) hsg
          simp only [List.mem_cons] at hmem
          rcases hmem with rfl | rfl | hrec
          · refine ⟨by omega, by omega, by omega, csWithin_of_none hs.2.2.2.1, ?_⟩
            rw [measureOf_textK hs.1]
            omega
          · exact ⟨by omega, by omega, by omega, hs.2.2.2.2.2.2.2.2.2.1, by omega⟩
          · have ih := objectsWalk_mem t f b2 e nd hrec
            exact ⟨by omega, by omega, by omega, ih.2.2.2.1, by omega⟩
      · rw [hpo] at hmem
        dsimp only at hmem
        have hs := parseObject_spec hpo
        simp only [List.cons_append, List.nil_append, List.mem_cons] at hmem
        rcases hmem with rfl | rfl | hrec
        · refine ⟨le_rfl, by dsimp only; omega, by dsimp only; omega,
            csWithin_of_none rfl, ?_⟩
          simp only [measureOf, walkRegion, rankOf]
          omega
        · exact ⟨by omega, by omega, by omega, hs.2.2.2.2.1, by omega⟩
        · have ih := objectsWalk_mem t f (b + 1 + off) e nd hrec
          exact ⟨by omega, by omega, by omega, ih.2.2.2.1, by omega⟩
    · rw [if_neg hpd] at hmem
      rcases hpo : parseObject t b e with - | ⟨nd1, off⟩
      · rw [hpo] at hmem
        dsimp only at hmem
        rcases hsg : objScanGo t b e (bsIdx t b e) with - | ⟨tnd, ond, b2⟩
        · rw [hsg] at hmem
          dsimp only at hmem
          simp only [List.mem_singleton] at hmem
          subst hmem
          refine ⟨le_rfl, by dsimp only; omega, by dsimp only; omega,
            csWithin_of_none rfl, ?_⟩
          simp only [measureOf, walkRegion, rankOf]
          omega
        · rw [hsg] at hmem
          dsimp only at hmem
          have hs := objScanGo_spec (bsIdx t b e) (fun p hp => mem_bsIdx hp) hsg
          simp only [List.mem_cons] at hmem
          rcases hmem with rfl | rfl | hrec
          · refine ⟨by omega, by omega, by omega, csWithin_of_none hs.2.2.2.1, ?_⟩
            rw [measureOf_textK hs.1]
            omega
          · exact ⟨by omega, by omega, by omega, hs.2.2.2.2.2.2.2.2.2.1, by omega⟩
          · have ih := objectsWalk_mem t f b2 e nd hrec
            exact ⟨by omega, by omega, by omega, ih.2.2.2.1, by omega⟩
      · rw [hpo] at hmem
        dsimp only at hmem
        have hs := parseObject_spec hpo
        simp only [List.cons_append, List.nil_append, List.mem_cons] at hmem
        rcases hmem with rfl | hrec
        · exact ⟨by omega, by omega, by omega, hs.2.2.2.2.1, by omega⟩
        · have ih := objectsWalk_mem t f (b + off) e nd hrec
          exact ⟨by omega, by omega, by omega, ih.2.2.2.1, by omega⟩

theorem objectsWalk_head {t : List Char} :
    ∀ {f b e : Nat} {hd : Node} {l : List Node},
      objectsWalk t f b e = hd :: l → hd.b = b := by
  intro f b e hd l h
  match f with
  | 0 => exact absurd h (by simp [objectsWalk])
  | f + 1 =>
    unfold objectsWalk at h
    by_cases hbe : b < e
    swap
    · rw [if_neg hbe] at h
      exact absurd h (by simp)
    rw [if_pos hbe] at h
    dsimp only at h
    by_cases hpd : preDelim (byteAt t b) = true
    · rw [if_pos hpd] at h
      rcases hpo : parseObject t (b + 1) e with - | ⟨nd1, off⟩
      · rw [hpo] at h
        dsimp only at h
        rcases hsg : objScanGo t b e (bsIdx t b e) with - | ⟨tnd, ond, b2⟩
        · rw [hsg] at h
          dsimp only at h
          injection h with h1 h2
          subst h1
          rfl
        · rw [hsg] at h
          dsimp only at h
          injection h with h1 h2
          subst h1
          exact (objScanGo_spec (bsIdx t b e) (fun p hp => mem_bsIdx hp) hsg).2.1
      · rw [hpo] at h
        dsimp only at h
        simp only [List.cons_append, List.nil_append] at h
        injection h with h1 h2
        subst h1
        rfl
    · rw [if_neg hpd] at h
      rcases hpo : parseObject t b e with - | ⟨nd1, off⟩
      · rw [hpo] at h
        dsimp only at h
        rcases hsg : objScanGo t b e (bsIdx t b e) with - | ⟨tnd, ond, b2⟩
        · rw [hsg] at h
          dsimp only at h
          injection h with h1 h2
          subst h1
          rfl
        · rw [hsg] at h
          dsimp only at h
          injection h with h1 h2
          subst h1
          exact (objScanGo_spec (bsIdx t b e) (fun p hp => mem_bsIdx hp) hsg).2.1
      · rw [hpo] at h
        dsimp only at h
        simp only [List.cons_append, List.nil_append] at h
        injection h with h1 h2
        subst h1
        exact (parseObject_spec hpo).2.2.1

theorem objectsWalk_chain (t : List Char) :
    ∀ (f b e : Nat),
      List.Chain'
        (fun x y => (x.e ≤ y.b ∨ (x.kind = .textK ∧ x.e = e)) ∧ x.b ≤ y.b)
        (objectsWalk t f b e)
  | 0, b, e => by simp [objectsWalk]
  | f + 1, b, e => by
    unfold objectsWalk
    by_cases hbe : b < e
    swap
    · rw [if_neg hbe]
      simp
    rw [if_pos hbe]
    dsimp only
    by_cases hpd : preDelim (byteAt t b) = true
    · rw [if_pos hpd]
      rcases hpo : parseObject t (b + 1) e with - | ⟨nd1, off⟩
      · dsimp only
        rcases hsg : objScanGo t b e (bsIdx t b e) with - | ⟨tnd, ond, b2⟩
        · dsimp only
          simp
        · dsimp only
          have hs := objScanGo_spec (bsIdx t b e) (fun p hp => mem_bsIdx hp) hsg
          refine List.chain'_cons'.mpr ⟨?_, List.chain'_cons'.mpr ⟨?_, ?_⟩⟩
          · intro y hy
            simp only [List.head?_cons, Option.mem_def, Option.some.injEq] at hy
            subst hy
            exact ⟨Or.inr ⟨hs.1, hs.2.2.1⟩, by omega⟩
          · intro y hy
            cases hrec : objectsWalk t f b2 e with
            | nil => rw [hrec] at hy; simp at hy
            | cons hd tl =>
              rw [hrec] at hy
              simp only [List.head?_cons, Option.mem_def, Option.some.injEq] at hy
              subst hy
              have hhd := objectsWalk_head hrec
              exact ⟨Or.inl (by omega), by omega⟩
          · exact objectsWalk_chain t f b2 e
      · dsimp only
        simp only [List.cons_append, List.nil_append]
        have hs := parseObject_spec hpo
        refine List.chain'_cons'.mpr ⟨?_, List.chain'_cons'.mpr ⟨?_, ?_⟩⟩
        · intro y hy
          simp only [List.head?_cons, Option.mem_def, Option.some.injEq] at hy
          subst hy
          refine ⟨Or.inr ⟨rfl, rfl⟩, ?_⟩
          dsimp only
          omega
        · intro y hy
          cases hrec : objectsWalk t f (b + 1 + off) e with
          | nil => rw [hrec] at hy; simp at hy
          | cons hd tl =>
            rw [hrec] at hy
            simp only [List.head?_cons, Option.mem_def, Option.some.injEq] at hy
            subst hy
            have hhd := objectsWalk_head hrec
            exact ⟨Or.inl (by omega), by omega⟩
        · exact objectsWalk_chain t f (b + 1 + off) e
    · rw [if_neg hpd]
      rcases hpo : parseObject t b e with - | ⟨nd1, off⟩
      · dsimp only
        rcases hsg : objScanGo t b e (bsIdx t b e) with - | ⟨tnd, ond, b2⟩
        · dsimp only
          simp
        · dsimp only
          have hs := objScanGo_spec (bsIdx t b e) (fun p hp => mem_bsIdx hp) hsg
          refine List.chain'_cons'.mpr ⟨?_, List.chain'_cons'.mpr ⟨?_, ?_⟩⟩
          · intro y hy
            simp only [List.head?_cons, Option.mem_def, Option.some.injEq] at hy
            subst hy
            exact ⟨Or.inr ⟨hs.1, hs.2.2.1⟩, by omega⟩
          · intro y hy
            cases hrec : objectsWalk t f b2 e with
            | nil => rw [hrec] at hy; simp at hy
            | cons hd tl =>
              rw [hrec] at hy
              simp only [List.head?_cons, Option.mem_def, Option.some.injEq] at hy
              subst hy
              have hhd := objectsWalk_head hrec
              exact ⟨Or.inl (by omega), by omega⟩
          · exact objectsWalk_chain t f b2 e
      · dsimp only
        simp only [List.cons_append, List.nil_append]
        have hs := parseObject_spec hpo
        refine List.chain'_cons'.mpr ⟨?_, ?_⟩
        · intro y hy
          cases hrec : objectsWalk t f (b + off) e with
          | nil => rw [hrec] at hy; simp at hy
          | cons hd tl =>
            rw [hrec] at hy
            simp only [List.head?_cons, Option.mem_def, Option.some.injEq] at hy
            subst hy
            have hhd := objectsWalk_head hrec
            exact ⟨Or.inl (by omega), by omega⟩
        · exact objectsWalk_chain t f (b + off) e

theorem paraScan_blank {t : List Char} {b e : Nat} :
    ∀ (l : List Nat) (pos : Nat) {i pos' : Nat}, l.Pairwise (· < ·) →
      (∀ x ∈ l, pos ≤ x ∧ x < (slice t b e).length ∧
        (slice t b e).getD x nulChar = '\n') →
      paraScan t b e l pos = some (.blank i pos') →
      pos' ≤ i ∧ i < (slice t b e).length ∧ (slice t b e).getD i nulChar = '\n'
  | [], pos, i, pos', _, _, h => absurd h (by simp [paraScan])
  | i0 :: rest, pos, i, pos', hpw, hmem, h => by
    unfold paraScan at h
    split at h
    · simp only [Option.some.injEq, ParaHit.blank.injEq] at h
      obtain ⟨rfl, rfl⟩ := h
      have := hmem i0 (by simp)
      exact ⟨this.1, this.2.1, this.2.2⟩
    · split at h
      · exact absurd h (by simp)
      · have hpc := List.pairwise_cons.mp hpw
        refine paraScan_blank rest (i0 + 1) hpc.2 (fun x hx => ?_) h
        have hx2 := hmem x (by simp [hx])
        have := hpc.1 x hx
        exact ⟨by omega, hx2.2.1, hx2.2.2⟩

theorem paraScan_elem {t : List Char} {b e : Nat} :
    ∀ (l : List Nat) (pos : Nat) {pos' : Nat} {nd : Node} {off : Nat},
      l.Pairwise (· < ·) →
      (∀ x ∈ l, pos ≤ x ∧ x < (slice t b e).length) →
      pos ≤ (slice t b e).length →
      paraScan t b e l pos = some (.elem pos' nd off) →
      parseElement t (b + pos') e = some (nd, off) ∧
        pos' ≤ (slice t b e).length
  | [], pos, pos', nd, off, _, _, _, h => absurd h (by simp [paraScan])
  | i0 :: rest, pos, pos', nd, off, hpw, hmem, hpos, h => by
    unfold paraScan at h
    split at h
    · exact absurd h (by simp)
    · split at h
      · next nd1 off1 hpe =>
        simp only [Option.some.injEq, ParaHit.elem.injEq] at h
        obtain ⟨rfl, rfl, rfl⟩ := h
        exact ⟨hpe, hpos⟩
      · have h0 := hmem i0 (by simp)
        have hpc := List.pairwise_cons.mp hpw
        refine paraScan_elem rest (i0 + 1) hpc.2 (fun x hx => ?_) (by omega) h
        have hx2 := hmem x (by simp [hx])
        have := hpc.1 x hx
        exact ⟨by omega, hx2.2⟩

theorem nlIdx_forall (s : List Char) :
    ∀ x ∈ nlIdx s, 0 ≤ x ∧ x < s.length ∧ s.getD x nulChar = '\n' :=
  fun x hx => ⟨Nat.zero_le x, (mem_nlIdx hx).1, (mem_nlIdx hx).2⟩

theorem elementsWalk_zero_or_done {t : List Char} {f b e : Nat} (h : ¬ b < e) :
    elementsWalk t f b e = [] := by
  cases f with
  | zero => rfl
  | succ f => simp [elementsWalk, h]

theorem elementsWalk_mem (t : List Char) :
    ∀ (f b e : Nat) (nd : Node), nd ∈ elementsWalk t f b e →
      b ≤ nd.b ∧ nd.b ≤ nd.e ∧ nd.e ≤ e ∧ csWithin nd ∧
        measureOf nd < 4 * (e - b) + 2
  | 0, b, e, nd, hmem => absurd hmem (by simp [elementsWalk])
  | f + 1, b, e, nd, hmem => by
    unfold elementsWalk at hmem
    by_cases hbe : b < e
    swap
    · rw [if_neg hbe] at hmem
      exact absurd hmem (by simp)
    rw [if_pos hbe] at hmem
    have hsl := slice_length_le t b e
    rcases hpe : parseElement t b e with - | ⟨nd1, off⟩
    · rw [hpe] at hmem
      dsimp only at hmem
      rcases hps : paraScan t b e (nlIdx (slice t b e)) 0 with - |
        (⟨i, pos⟩ | ⟨pos, nd2, off⟩)
      · rw [hps] at hmem
        dsimp only at hmem
        simp only [List.mem_singleton] at hmem
        subst hmem
        refine ⟨le_rfl, by dsimp only; omega, by dsimp only; omega, ?_, ?_⟩
        · intro cb ce hcs
          simp only [Option.some.injEq, Prod.mk.injEq] at hcs
          obtain ⟨rfl, rfl⟩ := hcs
          dsimp only
          refine ⟨le_rfl, by omega, ?_, ?_, fun _ => ?_⟩ <;> split <;> omega
        · simp only [measureOf, walkRegion, rankOf]
          split <;> omega
      · rw [hps] at hmem
        dsimp only at hmem
        have hbl := paraScan_blank (nlIdx (slice t b e)) 0
          (nlIdx_pairwise (slice t b e)) (nlIdx_forall (slice t b e)) hps
        have hsk := (skipEmptyLines_le ((slice t b e).drop i)).1
        rw [List.length_drop] at hsk
        simp only [List.mem_cons] at hmem
        rcases hmem with rfl | hrec
        · refine ⟨le_rfl, by dsimp only; omega, by dsimp only; omega, ?_, ?_⟩
          · intro cb ce hcs
            simp only [Option.some.injEq, Prod.mk.injEq] at hcs
            obtain ⟨rfl, rfl⟩ := hcs
            dsimp only
            refine ⟨le_rfl, by omega, by omega, by omega, fun _ => by omega⟩
          · simp only [measureOf, walkRegion, rankOf]
            omega
        · have ih := elementsWalk_mem t f (b + i + (skipEmptyLines ((slice t b e).drop i)).1) e nd hrec
          exact ⟨by omega, by omega, by omega, ih.2.2.2.1, by omega⟩
      · rw [hps] at hmem
        dsimp only at hmem
        have hel := paraScan_elem (nlIdx (slice t b e)) 0
          (nlIdx_pairwise (slice t b e))
          (fun x hx => ⟨Nat.zero_le x, (mem_nlIdx hx).1⟩) (Nat.zero_le _) hps
        have hs := parseElement_spec hel.1
        simp only [List.mem_cons] at hmem
        rcases hmem with rfl | rfl | hrec
        · refine ⟨le_rfl, by dsimp only; omega, by dsimp only; omega, ?_, ?_⟩
          · intro cb ce hcs
            simp only [Option.some.injEq, Prod.mk.injEq] at hcs
            obtain ⟨rfl, rfl⟩ := hcs
            dsimp only
            refine ⟨le_rfl, by omega, by omega, by omega, fun _ => by omega⟩
          · simp only [measureOf, walkRegion, rankOf]
            omega
        · exact ⟨by omega, by omega, by omega, hs.2.2.2.2.1, by omega⟩
        · have ih := elementsWalk_mem t f (b + pos + off) e nd hrec
          exact ⟨by omega, by omega, by omega, ih.2.2.2.1, by omega⟩
    · rw [hpe] at hmem
      dsimp only at hmem
      have hs := parseElement_spec hpe
      simp only [List.mem_cons] at hmem
      rcases hmem with rfl | hrec
      · exact ⟨by omega, by omega, by omega, hs.2.2.2.2.1, by omega⟩
      · have ih := elementsWalk_mem t f (b + off) e nd hrec
        exact ⟨by omega, by omega, by omega, ih.2.2.2.1, by omega⟩

theorem elementsWalk_head {t : List Char} :
    ∀ {f b e : Nat} {hd : Node} {l : List Node},
      elementsWalk t f b e = hd :: l → hd.b = b := by
  intro f b e hd l h
  match f with
  | 0 => exact absurd h (by simp [elementsWalk])
  | f + 1 =>
    unfold elementsWalk at h
    by_cases hbe : b < e
    swap
    · rw [if_neg hbe] at h
      exact absurd h (by simp)
    rw [if_pos hbe] at h
    rcases hpe : parseElement t b e with - | ⟨nd1, off⟩
    · rw [hpe] at h
      dsimp only at h
      rcases hps : paraScan t b e (nlIdx (slice t b e)) 0 with - |
        (⟨i, pos⟩ | ⟨pos, nd2, off⟩)
      all_goals rw [hps] at h
      all_goals dsimp only at h
      all_goals injection h with h1 h2
      all_goals subst h1
      all_goals rfl
    · rw [hpe] at h
      dsimp only at h
      injection h with h1 h2
      subst h1
      exact (parseElement_spec hpe).2.2.1

theorem elementsWalk_chain (t : List Char) :
    ∀ (f b e : Nat),
      List.Chain' (fun x y => x.e ≤ y.b ∧ x.b ≤ y.b) (elementsWalk t f b e)
  | 0, b, e => by simp [elementsWalk]
  | f + 1, b, e => by
    unfold elementsWalk
    by_cases hbe : b < e
    swap
    · rw [if_neg hbe]
      simp
    rw [if_pos hbe]
    rcases hpe : parseElement t b e with - | ⟨nd1, off⟩
    · dsimp only
      rcases hps : paraScan t b e (nlIdx (slice t b e)) 0 with - |
        (⟨i, pos⟩ | ⟨pos, nd2, off⟩)
      · dsimp only
        simp
      · dsimp only
        refine List.chain'_cons'.mpr ⟨?_, elementsWalk_chain t f _ e⟩
        intro y hy
        cases hrec : elementsWalk t f (b + i + (skipEmptyLines ((slice t b e).drop i)).1) e with
        | nil => rw [hrec] at hy; simp at hy
        | cons hd tl =>
          rw [hrec] at hy
          simp only [List.head?_cons, Option.mem_def, Option.some.injEq] at hy
          subst hy
          have hhd := elementsWalk_head hrec
          constructor
          · dsimp only
            omega
          · dsimp only
            omega
      · dsimp only
        have hel := paraScan_elem (nlIdx (slice t b e)) 0
          (nlIdx_pairwise (slice t b e))
          (fun x hx => ⟨Nat.zero_le x, (mem_nlIdx hx).1⟩) (Nat.zero_le _) hps
        have hs := parseElement_spec hel.1
        refine List.chain'_cons'.mpr ⟨?_, List.chain'_cons'.mpr
          ⟨?_, elementsWalk_chain t f _ e⟩⟩
        · intro y hy
          simp only [List.head?_cons, Option.mem_def, Option.some.injEq] at hy
          subst hy
          exact ⟨by dsimp only; omega, by dsimp only; omega⟩
        · intro y hy
          cases hrec : elementsWalk t f (b + pos + off) e with
          | nil => rw [hrec] at hy; simp at hy
          | cons hd tl =>
            rw [hrec] at hy
            simp only [List.head?_cons, Option.mem_def, Option.some.injEq] at hy
            subst hy
            have hhd := elementsWalk_head hrec
            exact ⟨by omega, by omega⟩
    · dsimp only
      have hs := parseElement_spec hpe
      refine List.chain'_cons'.mpr ⟨?_, elementsWalk_chain t f _ e⟩
      intro y hy
      cases hrec : elementsWalk t f (b + off) e with
      | nil => rw [hrec] at hy; simp at hy
      | cons hd tl =>
        rw [hrec] at hy
        simp only [List.head?_cons, Option.mem_def, Option.some.injEq] at hy
        subst hy
        have hhd := elementsWalk_head hrec
        exact ⟨by omega, by omega⟩

theorem headlinesLoop_mem (t : List Char) :
    ∀ (f b e : Nat) (nd : Node), e ≤ t.length → nd ∈ headlinesLoop t f b e →
      b ≤ nd.b ∧ nd.b ≤ nd.e ∧ nd.e ≤ e ∧ csWithin nd ∧
        measureOf nd < 4 * (e - b) + 3
  | 0, b, e, nd, _, hmem => absurd hmem (by simp [headlinesLoop])
  | f + 1, b, e, nd, he, hmem => by
    unfold headlinesLoop at hmem
    by_cases hbe : b < e
    swap
    · rw [if_neg hbe] at hmem
      exact absurd hmem (by simp)
    rw [if_pos hbe] at hmem
    dsimp only at hmem
    have hlen : (slice t b e).length = e - b := slice_length_eq he
    have hp := headlineParse_spec (slice t b e) (by omega)
    rw [hlen] at hp
    simp only [List.mem_cons] at hmem
    rcases hmem with rfl | hrec
    · refine ⟨le_rfl, by dsimp only; omega, by dsimp only; omega, ?_, ?_⟩
      · intro cb ce hcs
        simp only [Option.some.injEq, Prod.mk.injEq] at hcs
        obtain ⟨rfl, rfl⟩ := hcs
        dsimp only
        refine ⟨by omega, by omega, by omega, by omega, fun _ => by omega⟩
      · simp only [measureOf, walkRegion, rankOf]
        omega
    · have ih := headlinesLoop_mem t f (b + (headlineParse (slice t b e)).2) e nd he hrec
      exact ⟨by omega, by omega, by omega, ih.2.2.2.1, by omega⟩

theorem headlinesLoop_head {t : List Char} :
    ∀ {f b e : Nat} {hd : Node} {l : List Node},
      headlinesLoop t f b e = hd :: l → hd.b = b := by
  intro f b e hd l h
  match f with
  | 0 => exact absurd h (by simp [headlinesLoop])
  | f + 1 =>
    unfold headlinesLoop at h
    by_cases hbe : b < e
    swap
    · rw [if_neg hbe] at h
      exact absurd h (by simp)
    rw [if_pos hbe] at h
    dsimp only at h
    injection h with h1 h2
    subst h1
    rfl

theorem headlinesLoop_chain (t : List Char) :
    ∀ (f b e : Nat),
      List.Chain' (fun x y => x.e ≤ y.b ∧ x.b ≤ y.b) (headlinesLoop t f b e)
  | 0, b, e => by simp [headlinesLoop]
  | f + 1, b, e => by
    unfold headlinesLoop
    by_cases hbe : b < e
    swap
    · rw [if_neg hbe]
      simp
    rw [if_pos hbe]
    dsimp only
    refine List.chain'_cons'.mpr ⟨?_, headlinesLoop_chain t f _ e⟩
    intro y hy
    cases hrec : headlinesLoop t f (b + (headlineParse (slice t b e)).2) e with
    | nil => rw [hrec] at hy; simp at hy
    | cons hd tl =>
      rw [hrec] at hy
      simp only [List.head?_cons, Option.mem_def, Option.some.injEq] at hy
      subst hy
      have hhd := headlinesLoop_head hrec
      exact ⟨by dsimp only; omega, by dsimp only; omega⟩

theorem headlineWalk_mem {t : List Char} {f b e : Nat} {nd : Node}
    (he : e ≤ t.length) (hmem : nd ∈ headlineWalk t f b e) :
    b ≤ nd.b ∧ nd.b ≤ nd.e ∧ nd.e ≤ e ∧ csWithin nd ∧
      measureOf nd < 4 * (e - b) + 3 := by
  unfold headlineWalk at hmem
  by_cases hbe : b < e
  swap
  · rw [if_neg hbe] at hmem
    exact absurd hmem (by simp)
  rw [if_pos hbe] at hmem
  dsimp only at hmem
  by_cases hoff : findLevel (slice t b e) ≠ 0
  · rw [if_pos hoff] at hmem
    have hfl : findLevel (slice t b e) ≤ e - b := by
      have := findLevel_le (slice t b e)
      rw [slice_length_eq he] at this
      exact this
    have hsel := skipEmptyLines_le (slice t b (b + findLevel (slice t b e)))
    have hsel2 := slice_length_le t b (b + findLevel (slice t b e))
    simp only [List.mem_cons] at hmem
    rcases hmem with rfl | hrec
    · refine ⟨le_rfl, by dsimp only; omega, by dsimp only; omega, ?_, ?_⟩
      · intro cb ce hcs
        simp only [Option.some.injEq, Prod.mk.injEq] at hcs
        obtain ⟨rfl, rfl⟩ := hcs
        dsimp only
        refine ⟨by omega, by omega, by omega, by omega, fun hk => absurd rfl hk⟩
      · simp only [measureOf, walkRegion, rankOf]
        omega
    · have ih := headlinesLoop_mem t f (b + findLevel (slice t b e)) e nd he hrec
      exact ⟨by omega, by omega, by omega, ih.2.2.2.1, by omega⟩
  · rw [if_neg hoff] at hmem
    have ih := headlinesLoop_mem t f b e nd he hmem
    exact ih

theorem headlineWalk_chain (t : List Char) (f b e : Nat) :
    List.Chain' (fun x y => x.e ≤ y.b ∧ x.b ≤ y.b) (headlineWalk t f b e) := by
  unfold headlineWalk
  by_cases hbe : b < e
  swap
  · rw [if_neg hbe]
    simp
  rw [if_pos hbe]
  dsimp only
  by_cases hoff : findLevel (slice t b e) ≠ 0
  · rw [if_pos hoff]
    refine List.chain'_cons'.mpr ⟨?_, headlinesLoop_chain t f _ e⟩
    intro y hy
    cases hrec : headlinesLoop t f (b + findLevel (slice t b e)) e with
    | nil => rw [hrec] at hy; simp at hy
    | cons hd tl =>
      rw [hrec] at hy
      simp only [List.head?_cons, Option.mem_def, Option.some.injEq] at hy
      subst hy
      have hhd := headlinesLoop_head hrec
      exact ⟨by dsimp only; omega, by dsimp only; omega⟩
  · rw [if_neg hoff]
    exact headlinesLoop_chain t f b e

theorem listItemsWalk_mem (t : List Char) (ind : Nat) :
    ∀ (f b e : Nat) (nd : Node), e ≤ t.length → nd ∈ listItemsWalk t ind f b e →
      b ≤ nd.b ∧ nd.b ≤ nd.e ∧ nd.e ≤ e ∧ csWithin nd ∧
        measureOf nd < 4 * (e - b) + 1
  | 0, b, e, nd, _, hmem => absurd hmem (by simp [listItemsWalk])
  | f + 1, b, e, nd, he, hmem => by
    unfold listItemsWalk at hmem
    by_cases hbe : b < e
    swap
    · rw [if_neg hbe] at hmem
      exact absurd hmem (by simp)
    rw [if_pos hbe] at hmem
    dsimp only at hmem
    have hlen : (slice t b e).length = e - b := slice_length_eq he
    have hp := listItemParse_spec (slice t b e) ind (by omega)
    rw [hlen] at hp
    simp only [List.mem_cons] at hmem
    rcases hmem with rfl | hrec
    · refine ⟨le_rfl, by dsimp only; omega, by dsimp only; omega, ?_, ?_⟩
      · intro cb ce hcs
        simp only [Option.some.injEq, Prod.mk.injEq] at hcs
        obtain ⟨rfl, rfl⟩ := hcs
        dsimp only
        refine ⟨by omega, by omega, by omega, by omega, fun _ => by omega⟩
      · simp only [measureOf, walkRegion, rankOf]
        omega
    · have ih := listItemsWalk_mem t ind f
        (b + (listItemParse (slice t b e) ind).2) e nd he hrec
      exact ⟨by omega, by omega, by omega, ih.2.2.2.1, by omega⟩

theorem listItemsWalk_head {t : List Char} {ind : Nat} :
    ∀ {f b e : Nat} {hd : Node} {l : List Node},
      listItemsWalk t ind f b e = hd :: l → hd.b = b := by
  intro f b e hd l h
  match f with
  | 0 => exact absurd h (by simp [listItemsWalk])
  | f + 1 =>
    unfold listItemsWalk at h
    by_cases hbe : b < e
    swap
    · rw [if_neg hbe] at h
      exact absurd h (by simp)
    rw [if_pos hbe] at h
    dsimp only at h
    injection h with h1 h2
    subst h1
    rfl

theorem listItemsWalk_chain (t : List Char) (ind : Nat) :
    ∀ (f b e : Nat),
      List.Chain' (fun x y => x.e ≤ y.b ∧ x.b ≤ y.b) (listItemsWalk t ind f b e)
  | 0, b, e => by simp [listItemsWalk]
  | f + 1, b, e => by
    unfold listItemsWalk
    by_cases hbe : b < e
    swap
    · rw [if_neg hbe]
      simp
    rw [if_pos hbe]
    dsimp only
    refine List.chain'_cons'.mpr ⟨?_, listItemsWalk_chain t ind f _ e⟩
    intro y hy
    cases hrec : listItemsWalk t ind f (b + (listItemParse (slice t b e) ind).2) e with
    | nil => rw [hrec] at hy; simp at hy
    | cons hd tl =>
      rw [hrec] at hy
      simp only [List.head?_cons, Option.mem_def, Option.some.injEq] at hy
      subst hy
      have hhd := listItemsWalk_head hrec
      exact ⟨by dsimp only; omega, by dsimp only; omega⟩

theorem rootND_build (t : List Char) (f : Nat) (nd : Node) :
    rootND (build t f nd) = nd := by
  cases f <;> rfl

theorem headlineWalk_eq_nil_of_le {t : List Char} {f b e : Nat} (h : ¬ b < e) :
    headlineWalk t f b e = [] := by
  simp [headlineWalk, h]

theorem listItemsWalk_zero_or_done {t : List Char} {ind f b e : Nat}
    (h : ¬ b < e) : listItemsWalk t ind f b e = [] := by
  cases f with
  | zero => rfl
  | succ f => simp [listItemsWalk, h]

theorem mem_allNodesL {x : Node} :
    ∀ {l : List Tree}, x ∈ allNodesL l ↔ ∃ u ∈ l, x ∈ allNodesT u := by
  intro l
  induction l with
  | nil => simp [allNodesL]
  | cons c cs ih =>
    simp only [allNodesL, List.mem_append, ih, List.mem_cons]
    constructor
    · rintro (h | ⟨u, hu, hx⟩)
      · exact ⟨c, Or.inl rfl, h⟩
      · exact ⟨u, Or.inr hu, hx⟩
    · rintro ⟨u, rfl | hu, hx⟩
      · exact Or.inl hx
      · exact Or.inr ⟨u, hu, hx⟩

theorem mem_subtreesL {x : Tree} :
    ∀ {l : List Tree}, x ∈ subtreesL l ↔ ∃ u ∈ l, x ∈ subtreesT u := by
  intro l
  induction l with
  | nil => simp [subtreesL]
  | cons c cs ih =>
    simp only [subtreesL, List.mem_append, ih, List.mem_cons]
    constructor
    · rintro (h | ⟨u, hu, hx⟩)
      · exact ⟨c, Or.inl rfl, h⟩
      · exact ⟨u, Or.inr hu, hx⟩
    · rintro ⟨u, rfl | hu, hx⟩
      · exact Or.inl hx
      · exact Or.inr ⟨u, hu, hx⟩

theorem childrenOf_ok {t : List Char} {nd : Node} (hok : ndOk t.length nd) :
    ∀ c ∈ childrenOf t nd, ndOk t.length c ∧ measureOf c < measureOf nd := by
  intro c hc
  obtain ⟨k, nb, ne, cs, val, aux⟩ := nd
  obtain ⟨hbe, heN, hcs⟩ := hok
  dsimp only at hbe heN
  cases k
  case doc =>
    simp only [childrenOf, walkRegion] at hc
    have hm := headlineWalk_mem heN hc
    refine ⟨⟨hm.2.1, by omega, hm.2.2.2.1⟩, ?_⟩
    conv_rhs => simp only [measureOf, walkRegion, rankOf]
    omega
  case headlineK =>
    cases cs with
    | none =>
      simp only [childrenOf, walkRegion] at hc
      rw [headlineWalk_eq_nil_of_le (by omega)] at hc
      exact absurd hc (by simp)
    | some p =>
      obtain ⟨cb, ce⟩ := p
      have hp := hcs cb ce rfl
      dsimp only at hp
      simp only [childrenOf, walkRegion] at hc
      have hm := headlineWalk_mem (t := t) (by omega) hc
      refine ⟨⟨hm.2.1, by omega, hm.2.2.2.1⟩, ?_⟩
      conv_rhs => simp only [measureOf, walkRegion, rankOf]
      omega
  case sectionK =>
    cases cs with
    | none =>
      simp only [childrenOf, walkRegion] at hc
      rw [elementsWalk_zero_or_done (by omega)] at hc
      exact absurd hc (by simp)
    | some p =>
      obtain ⟨cb, ce⟩ := p
      have hp := hcs cb ce rfl
      dsimp only at hp
      simp only [childrenOf, walkRegion] at hc
      have hm := elementsWalk_mem t (ce - cb) cb ce c hc
      refine ⟨⟨hm.2.1, by omega, hm.2.2.2.1⟩, ?_⟩
      conv_rhs => simp only [measureOf, walkRegion, rankOf]
      omega
  case blockK =>
    cases cs with
    | none =>
      simp only [childrenOf, walkRegion] at hc
      rw [elementsWalk_zero_or_done (by omega)] at hc
      exact absurd hc (by simp)
    | some p =>
      obtain ⟨cb, ce⟩ := p
      have hp := hcs cb ce rfl
      dsimp only at hp
      simp only [childrenOf, walkRegion] at hc
      have hm := elementsWalk_mem t (ce - cb) cb ce c hc
      refine ⟨⟨hm.2.1, by omega, hm.2.2.2.1⟩, ?_⟩
      conv_rhs => simp only [measureOf, walkRegion, rankOf]
      omega
  case listItem =>
    cases cs with
    | none =>
      simp only [childrenOf, walkRegion] at hc
      rw [elementsWalk_zero_or_done (by omega)] at hc
      exact absurd hc (by simp)
    | some p =>
      obtain ⟨cb, ce⟩ := p
      have hp := hcs cb ce rfl
      dsimp only at hp
      simp only [childrenOf, walkRegion] at hc
      have hm := elementsWalk_mem t (ce - cb) cb ce c hc
      refine ⟨⟨hm.2.1, by omega, hm.2.2.2.1⟩, ?_⟩
      conv_rhs => simp only [measureOf, walkRegion, rankOf]
      omega
  case paragraph =>
    cases cs with
    | none =>
      simp only [childrenOf, walkRegion] at hc
      rw [objectsWalk_zero_or_done (by omega)] at hc
      exact absurd hc (by simp)
    | some p =>
      obtain ⟨cb, ce⟩ := p
      have hp := hcs cb ce rfl
      dsimp only at hp
      simp only [childrenOf, walkRegion] at hc
      have hm := objectsWalk_mem t (ce - cb) cb ce c hc
      refine ⟨⟨hm.2.1, by omega, hm.2.2.2.1⟩, ?_⟩
      conv_rhs => simp only [measureOf, walkRegion, rankOf]
      omega
  case bold =>
    cases cs with
    | none =>
      simp only [childrenOf, walkRegion] at hc
      rw [objectsWalk_zero_or_done (by omega)] at hc
      exact absurd hc (by simp)
    | some p =>
      obtain ⟨cb, ce⟩ := p
      have hp := hcs cb ce rfl
      dsimp only at hp
      simp only [childrenOf, walkRegion] at hc
      have hm := objectsWalk_mem t (ce - cb) cb ce c hc
      refine ⟨⟨hm.2.1, by omega, hm.2.2.2.1⟩, ?_⟩
      conv_rhs => simp only [measureOf, walkRegion, rankOf]
      omega
  case italic =>
    cases cs with
    | none =>
      simp only [childrenOf, walkRegion] at hc
      rw [objectsWalk_zero_or_done (by omega)] at hc
      exact absurd hc (by simp)
    | some p =>
      obtain ⟨cb, ce⟩ := p
      have hp := hcs cb ce rfl
      dsimp only at hp
      simp only [childrenOf, walkRegion] at hc
      have hm := objectsWalk_mem t (ce - cb) cb ce c hc
      refine ⟨⟨hm.2.1, by omega, hm.2.2.2.1⟩, ?_⟩
      conv_rhs => simp only [measureOf, walkRegion, rankOf]
      omega
  case underline =>
    cases cs with
    | none =>
      simp only [childrenOf, walkRegion] at hc
      rw [objectsWalk_zero_or_done (by omega)] at hc
      exact absurd hc (by simp)
    | some p =>
      obtain ⟨cb, ce⟩ := p
      have hp := hcs cb ce rfl
      dsimp only at hp
      simp only [childrenOf, walkRegion] at hc
      have hm := objectsWalk_mem t (ce - cb) cb ce c hc
      refine ⟨⟨hm.2.1, by omega, hm.2.2.2.1⟩, ?_⟩
      conv_rhs => simp only [measureOf, walkRegion, rankOf]
      omega
  case strike =>
    cases cs with
    | none =>
      simp only [childrenOf, walkRegion] at hc
      rw [objectsWalk_zero_or_done (by omega)] at hc
      exact absurd hc (by simp)
    | some p =>
      obtain ⟨cb, ce⟩ := p
      have hp := hcs cb ce rfl
      dsimp only at hp
      simp only [childrenOf, walkRegion] at hc
      have hm := objectsWalk_mem t (ce - cb) cb ce c hc
      refine ⟨⟨hm.2.1, by omega, hm.2.2.2.1⟩, ?_⟩
      conv_rhs => simp only [measureOf, walkRegion, rankOf]
      omega
  case listK =>
    cases cs with
    | none =>
      simp only [childrenOf, walkRegion] at hc
      rw [listItemsWalk_zero_or_done (by omega)] at hc
      exact absurd hc (by simp)
    | some p =>
      obtain ⟨cb, ce⟩ := p
      have hp := hcs cb ce rfl
      dsimp only at hp
      simp only [childrenOf, walkRegion] at hc
      have hm := listItemsWalk_mem t aux (ce - cb) cb ce c (by omega) hc
      refine ⟨⟨hm.2.1, by omega, hm.2.2.2.1⟩, ?_⟩
      conv_rhs => simp only [measureOf, walkRegion, rankOf]
      omega
  all_goals exact absurd hc (by simp [childrenOf])

theorem childrenOf_layout {t : List Char} {nd : Node} (hok : ndOk t.length nd) :
    (∀ c ∈ childrenOf t nd, (walkRegion nd).1 ≤ c.b ∧ c.b ≤ c.e ∧
      c.e ≤ (walkRegion nd).2) ∧
    List.Chain' ordRel (childrenOf t nd) ∧
    List.Chain' (sepRel (walkRegion nd).2) (childrenOf t nd) := by
  obtain ⟨k, nb, ne, cs, val, aux⟩ := nd
  obtain ⟨hbe, heN, hcs⟩ := hok
  dsimp only at hbe heN
  cases k
  case doc =>
    refine ⟨?_, ?_, ?_⟩
    · intro c hc
      simp only [childrenOf, walkRegion] at hc ⊢
      have hm := headlineWalk_mem heN hc
      exact ⟨hm.1, hm.2.1, hm.2.2.1⟩
    · simp only [childrenOf, walkRegion]
      exact (headlineWalk_chain t (ne - nb) nb ne).imp (fun _ _ h => h.2)
    · simp only [childrenOf, walkRegion]
      exact (headlineWalk_chain t (ne - nb) nb ne).imp (fun _ _ h => Or.inl h.1)
  case headlineK =>
    cases cs with
    | none =>
      have hnil : childrenOf t
          { kind := .headlineK, b := nb, e := ne, cs := none, val := val,
            aux := aux } = [] := by
        simp only [childrenOf, walkRegion]
        exact headlineWalk_eq_nil_of_le (by omega)
      rw [hnil]
      exact ⟨fun c hc => absurd hc (by simp), List.chain'_nil, List.chain'_nil⟩
    | some p =>
      obtain ⟨cb, ce⟩ := p
      have hp := hcs cb ce rfl
      dsimp only at hp
      refine ⟨?_, ?_, ?_⟩
      · intro c hc
        simp only [childrenOf, walkRegion] at hc ⊢
        have hm := headlineWalk_mem (t := t) (by omega) hc
        exact ⟨hm.1, hm.2.1, hm.2.2.1⟩
      · simp only [childrenOf, walkRegion]
        exact (headlineWalk_chain t (ce - cb) cb ce).imp (fun _ _ h => h.2)
      · simp only [childrenOf, walkRegion]
        exact (headlineWalk_chain t (ce - cb) cb ce).imp (fun _ _ h => Or.inl h.1)
  case sectionK =>
    cases cs with
    | none =>
      have hnil : childrenOf t
          { kind := .sectionK, b := nb, e := ne, cs := none, val := val,
            aux := aux } = [] := by
        simp only [childrenOf, walkRegion]
        exact elementsWalk_zero_or_done (by omega)
      rw [hnil]
      exact ⟨fun c hc => absurd hc (by simp), List.chain'_nil, List.chain'_nil⟩
    | some p =>
      obtain ⟨cb, ce⟩ := p
      refine ⟨?_, ?_, ?_⟩
      · intro c hc
        simp only [childrenOf, walkRegion] at hc ⊢
        have hm := elementsWalk_mem t (ce - cb) cb ce c hc
        exact ⟨hm.1, hm.2.1, hm.2.2.1⟩
      · simp only [childrenOf, walkRegion]
        exact (elementsWalk_chain t (ce - cb) cb ce).imp (fun _ _ h => h.2)
      · simp only [childrenOf, walkRegion]
        exact (elementsWalk_chain t (ce - cb) cb ce).imp (fun _ _ h => Or.inl h.1)
  case blockK =>
    cases cs with
    | none =>
      have hnil : childrenOf t
          { kind := .blockK, b := nb, e := ne, cs := none, val := val,
            aux := aux } = [] := by
        simp only [childrenOf, walkRegion]
        exact elementsWalk_zero_or_done (by omega)
      rw [hnil]
      exact ⟨fun c hc => absurd hc (by simp), List.chain'_nil, List.chain'_nil⟩
    | some p =>
      obtain ⟨cb, ce⟩ := p
      refine ⟨?_, ?_, ?_⟩
      · intro c hc
        simp only [childrenOf, walkRegion] at hc ⊢
        have hm := elementsWalk_mem t (ce - cb) cb ce c hc
        exact ⟨hm.1, hm.2.1, hm.2.2.1⟩
      · simp only [childrenOf, walkRegion]
        exact (elementsWalk_chain t (ce - cb) cb ce).imp (fun _ _ h => h.2)
      · simp only [childrenOf, walkRegion]
        exact (elementsWalk_chain t (ce - cb) cb ce).imp (fun _ _ h => Or.inl h.1)
  case listItem =>
    cases cs with
    | none =>
      have hnil : childrenOf t
          { kind := .listItem, b := nb, e := ne, cs := none, val := val,
            aux := aux } = [] := by
        simp only [childrenOf, walkRegion]
        exact elementsWalk_zero_or_done (by omega)
      rw [hnil]
      exact ⟨fun c hc => absurd hc (by simp), List.chain'_nil, List.chain'_nil⟩
    | some p =>
      obtain ⟨cb, ce⟩ := p
      refine ⟨?_, ?_, ?_⟩
      · intro c hc
        simp only [childrenOf, walkRegion] at hc ⊢
        have hm := elementsWalk_mem t (ce - cb) cb ce c hc
        exact ⟨hm.1, hm.2.1, hm.2.2.1⟩
      · simp only [childrenOf, walkRegion]
        exact (elementsWalk_chain t (ce - cb) cb ce).imp (fun _ _ h => h.2)
      · simp only [childrenOf, walkRegion]
        exact (elementsWalk_chain t (ce - cb) cb ce).imp (fun _ _ h => Or.inl h.1)
  case paragraph =>
    cases cs with
    | none =>
      have hnil : childrenOf t
          { kind := .paragraph, b := nb, e := ne, cs := none, val := val,
            aux := aux } = [] := by
        simp only [childrenOf, walkRegion]
        exact objectsWalk_zero_or_done (by omega)
      rw [hnil]
      exact ⟨fun c hc => absurd hc (by simp), List.chain'_nil, List.chain'_nil⟩
    | some p =>
      obtain ⟨cb, ce⟩ := p
      refine ⟨?_, ?_, ?_⟩
      · intro c hc
        simp only [childrenOf, walkRegion] at hc ⊢
        have hm := objectsWalk_mem t (ce - cb) cb ce c hc
        exact ⟨hm.1, hm.2.1, hm.2.2.1⟩
      · simp only [childrenOf, walkRegion]
        exact (objectsWalk_chain t (ce - cb) cb ce).imp (fun _ _ h => h.2)
      · simp only [childrenOf, walkRegion]
        exact (objectsWalk_chain t (ce - cb) cb ce).imp (fun _ _ h => h.1)
  case bold =>
    cases cs with
    | none =>
      have hnil : childrenOf t
          { kind := .bold, b := nb, e := ne, cs := none, val := val,
            aux := aux } = [] := by
        simp only [childrenOf, walkRegion]
        exact objectsWalk_zero_or_done (by omega)
      rw [hnil]
      exact ⟨fun c hc => absurd hc (by simp), List.chain'_nil, List.chain'_nil⟩
    | some p =>
      obtain ⟨cb, ce⟩ := p
      refine ⟨?_, ?_, ?_⟩
      · intro c hc
        simp only [childrenOf, walkRegion] at hc ⊢
        have hm := objectsWalk_mem t (ce - cb) cb ce c hc
        exact ⟨hm.1, hm.2.1, hm.2.2.1⟩
      · simp only [childrenOf, walkRegion]
        exact (objectsWalk_chain t (ce - cb) cb ce).imp (fun _ _ h => h.2)
      · simp only [childrenOf, walkRegion]
        exact (objectsWalk_chain t (ce - cb) cb ce).imp (fun _ _ h => h.1)
  case italic =>
    cases cs with
    | none =>
      have hnil : childrenOf t
          { kind := .italic, b := nb, e := ne, cs := none, val := val,
            aux := aux } = [] := by
        simp only [childrenOf, walkRegion]
        exact objectsWalk_zero_or_done (by omega)
      rw [hnil]
      exact ⟨fun c hc => absurd hc (by simp), List.chain'_nil, List.chain'_nil⟩
    | some p =>
      obtain ⟨cb, ce⟩ := p
      refine ⟨?_, ?_, ?_⟩
      · intro c hc
        simp only [childrenOf, walkRegion] at hc ⊢
        have hm := objectsWalk_mem t (ce - cb) cb ce c hc
        exact ⟨hm.1, hm.2.1, hm.2.2.1⟩
      · simp only [childrenOf, walkRegion]
        exact (objectsWalk_chain t (ce - cb) cb ce).imp (fun _ _ h => h.2)
      · simp only [childrenOf, walkRegion]
        exact (objectsWalk_chain t (ce - cb) cb ce).imp (fun _ _ h => h.1)
  case underline =>
    cases cs with
    | none =>
      have hnil : childrenOf t
          { kind := .underline, b := nb, e := ne, cs := none, val := val,
            aux := aux } = [] := by
        simp only [childrenOf, walkRegion]
        exact objectsWalk_zero_or_done (by omega)
      rw [hnil]
      exact ⟨fun c hc => absurd hc (by simp), List.chain'_nil, List.chain'_nil⟩
    | some p =>
      obtain ⟨cb, ce⟩ := p
      refine ⟨?_, ?_, ?_⟩
      · intro c hc
        simp only [childrenOf, walkRegion] at hc ⊢
        have hm := objectsWalk_mem t (ce - cb) cb ce c hc
        exact ⟨hm.1, hm.2.1, hm.2.2.1⟩
      · simp only [childrenOf, walkRegion]
        exact (objectsWalk_chain t (ce - cb) cb ce).imp (fun _ _ h => h.2)
      · simp only [childrenOf, walkRegion]
        exact (objectsWalk_chain t (ce - cb) cb ce).imp (fun _ _ h => h.1)
  case strike =>
    cases cs with
    | none =>
      have hnil : childrenOf t
          { kind := .strike, b := nb, e := ne, cs := none, val := val,
            aux := aux } = [] := by
        simp only [childrenOf, walkRegion]
        exact objectsWalk_zero_or_done (by omega)
      rw [hnil]
      exact ⟨fun c hc => absurd hc (by simp), List.chain'_nil, List.chain'_nil⟩
    | some p =>
      obtain ⟨cb, ce⟩ := p
      refine ⟨?_, ?_, ?_⟩
      · intro c hc
        simp only [childrenOf, walkRegion] at hc ⊢
        have hm := objectsWalk_mem t (ce - cb) cb ce c hc
        exact ⟨hm.1, hm.2.1, hm.2.2.1⟩
      · simp only [childrenOf, walkRegion]
        exact (objectsWalk_chain t (ce - cb) cb ce).imp (fun _ _ h => h.2)
      · simp only [childrenOf, walkRegion]
        exact (objectsWalk_chain t (ce - cb) cb ce).imp (fun _ _ h => h.1)
  case listK =>
    cases cs with
    | none =>
      have hnil : childrenOf t
          { kind := .listK, b := nb, e := ne, cs := none, val := val,
            aux := aux } = [] := by
        simp only [childrenOf, walkRegion]
        exact listItemsWalk_zero_or_done (by omega)
      rw [hnil]
      exact ⟨fun c hc => absurd hc (by simp), List.chain'_nil, List.chain'_nil⟩
    | some p =>
      obtain ⟨cb, ce⟩ := p
      have hp := hcs cb ce rfl
      dsimp only at hp
      refine ⟨?_, ?_, ?_⟩
      · intro c hc
        simp only [childrenOf, walkRegion] at hc ⊢
        have hm := listItemsWalk_mem t aux (ce - cb) cb ce c (by omega) hc
        exact ⟨hm.1, hm.2.1, hm.2.2.1⟩
      · simp only [childrenOf, walkRegion]
        exact (listItemsWalk_chain t aux (ce - cb) cb ce).imp (fun _ _ h => h.2)
      · simp only [childrenOf, walkRegion]
        exact (listItemsWalk_chain t aux (ce - cb) cb ce).imp (fun _ _ h => Or.inl h.1)
  all_goals
    refine ⟨fun c hc => absurd hc (by simp [childrenOf]), ?_, ?_⟩ <;>
      simp [childrenOf]

theorem build_mem_ok (t : List Char) :
    ∀ (f : Nat) (nd : Node), ndOk t.length nd →
      ∀ x ∈ allNodesT (build t f nd), ndOk t.length x
  | 0, nd, hok, x, hx => by
    simp only [build, allNodesT, allNodesL, List.mem_singleton] at hx
    subst hx
    exact hok
  | f + 1, nd, hok, x, hx => by
    simp only [build, allNodesT, List.mem_cons] at hx
    rcases hx with rfl | hx
    · exact hok
    · obtain ⟨u, hu, hxu⟩ := mem_allNodesL.mp hx
      obtain ⟨c, hc, rfl⟩ := List.mem_map.mp hu
      exact build_mem_ok t f c (childrenOf_ok hok c hc).1 x hxu

theorem build_stable (t : List Char) :
    ∀ (f1 f2 : Nat) (nd : Node), ndOk t.length nd → measureOf nd < f1 →
      measureOf nd < f2 → build t f1 nd = build t f2 nd
  | 0, _, nd, _, h1, _ => absurd h1 (by omega)
  | _ + 1, 0, nd, _, _, h2 => absurd h2 (by omega)
  | f1 + 1, f2 + 1, nd, hok, h1, h2 => by
    show Tree.mk nd ((childrenOf t nd).map (build t f1)) =
      Tree.mk nd ((childrenOf t nd).map (build t f2))
    congr 1
    refine List.map_congr_left (fun c hc => ?_)
    have hco := childrenOf_ok hok c hc
    exact build_stable t f1 f2 c hco.1 (by omega) (by omega)

theorem build_subtrees_layout (t : List Char) :
    ∀ (f : Nat) (nd : Node), ndOk t.length nd →
      ∀ st ∈ subtreesT (build t f nd),
        (∀ c ∈ (childrenT st).map rootND,
            (walkRegion (rootND st)).1 ≤ c.b ∧ c.b ≤ c.e ∧
              c.e ≤ (walkRegion (rootND st)).2) ∧
        List.Chain' ordRel ((childrenT st).map rootND) ∧
        List.Chain' (sepRel (walkRegion (rootND st)).2) ((childrenT st).map rootND)
  | 0, nd, hok, st, hst => by
    simp only [build, subtreesT, subtreesL, List.mem_singleton] at hst
    subst hst
    exact ⟨fun c hc => absurd hc (by simp [childrenT]), by simp [childrenT],
      by simp [childrenT]⟩
  | f + 1, nd, hok, st, hst => by
    simp only [build, subtreesT, List.mem_cons] at hst
    rcases hst with rfl | hst
    · have hmap : ((childrenOf t nd).map (build t f)).map rootND =
          childrenOf t nd := by
        rw [List.map_map]
        have hcg : ∀ c ∈ childrenOf t nd, (rootND ∘ build t f) c = id c :=
          fun c _ => rootND_build t f c
        rw [List.map_congr_left hcg, List.map_id]
      have hl := childrenOf_layout hok
      refine ⟨?_, ?_, ?_⟩
      · intro c hc
        simp only [childrenT, rootND, hmap] at hc ⊢
        exact hl.1 c hc
      · simp only [childrenT, rootND, hmap]
        exact hl.2.1
      · simp only [childrenT, rootND, hmap]
        exact hl.2.2
    · obtain ⟨u, hu, hstu⟩ := mem_subtreesL.mp hst
      obtain ⟨c, hc, rfl⟩ := List.mem_map.mp hu
      exact build_subtrees_layout t f c (childrenOf_ok hok c hc).1 st hstu

theorem elementsWalk_mono (t : List Char) :
    ∀ (f1 f2 b e : Nat), e ≤ t.length → e - b ≤ f1 → e - b ≤ f2 →
      elementsWalk t f1 b e = elementsWalk t f2 b e
  | 0, f2, b, e, _, h1, _ => by
    have hbe : ¬ b < e := by omega
    rw [elementsWalk_zero_or_done hbe, elementsWalk_zero_or_done hbe]
  | f1 + 1, f2, b, e, he, h1, h2 => by
    by_cases hbe : b < e
    swap
    · rw [elementsWalk_zero_or_done hbe, elementsWalk_zero_or_done hbe]
    obtain ⟨f2x, rfl⟩ : ∃ g, f2 = g + 1 := ⟨f2 - 1, by omega⟩
    unfold elementsWalk
    rw [if_pos hbe, if_pos hbe]
    have hsl : (slice t b e).length = e - b := slice_length_eq he
    rcases hpe : parseElement t b e with - | ⟨nd1, off⟩
    · dsimp only
      rcases hps : paraScan t b e (nlIdx (slice t b e)) 0 with - |
        (⟨i, pos⟩ | ⟨pos, nd2, off⟩)
      · rfl
      · dsimp only
        have hbl := paraScan_blank (nlIdx (slice t b e)) 0
          (nlIdx_pairwise (slice t b e)) (nlIdx_forall (slice t b e)) hps
        have hskl := (skipEmptyLines_le ((slice t b e).drop i)).1
        rw [List.length_drop] at hskl
        have hsk : 1 ≤ i + (skipEmptyLines ((slice t b e).drop i)).1 := by
          rcases Nat.eq_zero_or_pos i with rfl | hi
          · have h0 : ((slice t b e).drop 0).getD 0 nulChar = '\n' := by
              rw [List.drop_zero]
              exact hbl.2.2
            have hlp : 0 < ((slice t b e).drop 0).length := by
              rw [List.drop_zero]
              omega
            have := skipEmptyLines_fst_pos h0 hlp
            omega
          · omega
        rw [elementsWalk_mono t f1 f2x
          (b + i + (skipEmptyLines ((slice t b e).drop i)).1) e he
          (by omega) (by omega)]
      · dsimp only
        have hel := paraScan_elem (nlIdx (slice t b e)) 0
          (nlIdx_pairwise (slice t b e))
          (fun x hx => ⟨Nat.zero_le x, (mem_nlIdx hx).1⟩) (Nat.zero_le _) hps
        have hs := parseElement_spec hel.1
        rw [elementsWalk_mono t f1 f2x (b + pos + off) e he (by omega) (by omega)]
    · dsimp only
      have hs := parseElement_spec hpe
      rw [elementsWalk_mono t f1 f2x (b + off) e he (by omega) (by omega)]

theorem objectsWalk_mono (t : List Char) :
    ∀ (f1 f2 b e : Nat), e - b ≤ f1 → e - b ≤ f2 →
      objectsWalk t f1 b e = objectsWalk t f2 b e
  | 0, f2, b, e, h1, _ => by
    have hbe : ¬ b < e := by omega
    rw [objectsWalk_zero_or_done hbe, objectsWalk_zero_or_done hbe]
  | f1 + 1, f2, b, e, h1, h2 => by
    by_cases hbe : b < e
    swap
    · rw [objectsWalk_zero_or_done hbe, objectsWalk_zero_or_done hbe]
    obtain ⟨f2x, rfl⟩ : ∃ g, f2 = g + 1 := ⟨f2 - 1, by omega⟩
    unfold objectsWalk
    rw [if_pos hbe, if_pos hbe]
    dsimp only
    by_cases hpd : preDelim (byteAt t b) = true
    · rw [if_pos hpd]
      rcases hpo : parseObject t (b + 1) e with - | ⟨nd1, off⟩
      · dsimp only
        rcases hsg : objScanGo t b e (bsIdx t b e) with - | ⟨tnd, ond, b2⟩
        · rfl
        · dsimp only
          have hs := objScanGo_spec (bsIdx t b e) (fun p hp => mem_bsIdx hp) hsg
          rw [objectsWalk_mono t f1 f2x b2 e (by omega) (by omega)]
      · dsimp only
        have hs := parseObject_spec hpo
        rw [objectsWalk_mono t f1 f2x (b + 1 + off) e (by omega) (by omega)]
    · rw [if_neg hpd]
      rcases hpo : parseObject t b e with - | ⟨nd1, off⟩
      · dsimp only
        rcases hsg : objScanGo t b e (bsIdx t b e) with - | ⟨tnd, ond, b2⟩
        · rfl
        · dsimp only
          have hs := objScanGo_spec (bsIdx t b e) (fun p hp => mem_bsIdx hp) hsg
          rw [objectsWalk_mono t f1 f2x b2 e (by omega) (by omega)]
      · dsimp only
        have hs := parseObject_spec hpo
        rw [objectsWalk_mono t f1 f2x (b + off) e (by omega) (by omega)]

theorem headlinesLoop_mono (t : List Char) :
    ∀ (f1 f2 b e : Nat), e ≤ t.length → e - b ≤ f1 → e - b ≤ f2 →
      headlinesLoop t f1 b e = headlinesLoop t f2 b e
  | 0, f2, b, e, _, h1, _ => by
    have hbe : ¬ b < e := by omega
    cases f2 with
    | zero => rfl
    | succ f2 => simp [headlinesLoop, hbe]
  | f1 + 1, f2, b, e, he, h1, h2 => by
    by_cases hbe : b < e
    swap
    · cases f2 with
      | zero => simp [headlinesLoop, hbe]
      | succ f2 => simp [headlinesLoop, hbe]
    obtain ⟨f2x, rfl⟩ : ∃ g, f2 = g + 1 := ⟨f2 - 1, by omega⟩
    unfold headlinesLoop
    rw [if_pos hbe, if_pos hbe]
    dsimp only
    have hlen : (slice t b e).length = e - b := slice_length_eq he
    have hp := headlineParse_spec (slice t b e) (by omega)
    rw [headlinesLoop_mono t f1 f2x (b + (headlineParse (slice t b e)).2) e he
      (by omega) (by omega)]

theorem listItemsWalk_mono (t : List Char) (ind : Nat) :
    ∀ (f1 f2 b e : Nat), e ≤ t.length → e - b ≤ f1 → e - b ≤ f2 →
      listItemsWalk t ind f1 b e = listItemsWalk t ind f2 b e
  | 0, f2, b, e, _, h1, _ => by
    have hbe : ¬ b < e := by omega
    rw [listItemsWalk_zero_or_done hbe, listItemsWalk_zero_or_done hbe]
  | f1 + 1, f2, b, e, he, h1, h2 => by
    by_cases hbe : b < e
    swap
    · rw [listItemsWalk_zero_or_done hbe, listItemsWalk_zero_or_done hbe]
    obtain ⟨f2x, rfl⟩ : ∃ g, f2 = g + 1 := ⟨f2 - 1, by omega⟩
    unfold listItemsWalk
    rw [if_pos hbe, if_pos hbe]
    dsimp only
    have hlen : (slice t b e).length = e - b := slice_length_eq he
    have hp := listItemParse_spec (slice t b e) ind (by omega)
    rw [listItemsWalk_mono t ind f1 f2x
      (b + (listItemParse (slice t b e) ind).2) e he (by omega) (by omega)]

theorem headlineWalk_mono (t : List Char) (f1 f2 b e : Nat) (he : e ≤ t.length)
    (h1 : e - b ≤ f1) (h2 : e - b ≤ f2) :
    headlineWalk t f1 b e = headlineWalk t f2 b e := by
  unfold headlineWalk
  by_cases hbe : b < e
  swap
  · rw [if_neg hbe, if_neg hbe]
  rw [if_pos hbe, if_pos hbe]
  dsimp only
  by_cases hoff : findLevel (slice t b e) ≠ 0
  · rw [if_pos hoff, if_pos hoff]
    congr 1
    exact headlinesLoop_mono t f1 f2 (b + findLevel (slice t b e)) e he
      (by omega) (by omega)
  · rw [if_neg hoff, if_neg hoff]
    exact headlinesLoop_mono t f1 f2 b e he h1 h2

theorem docNode_ok (t : List Char) : ndOk t.length (docNode t) :=
  ⟨Nat.zero_le _, le_rfl, csWithin_of_none rfl⟩

theorem measureOf_docNode (t : List Char) :
    measureOf (docNode t) = 4 * t.length + 3 := by
  simp [measureOf, walkRegion, rankOf, docNode]

/-- A tree is one of its own subtrees. -/
theorem self_mem_subtreesT (tr : Tree) : tr ∈ subtreesT tr := by
  cases tr with
  | mk nd cs => simp [subtreesT]

/-- C1, counterexample.  For the input
`"#+BEGIN_SRC rust\nfn main(){}\n#+END_SRC\n"` the `Block` node under the
`Section` does have children: its contents region is parsed again as
elements, yielding a `Paragraph`, so the claim that the contents of a
`src` block are not further parsed fails. -/
theorem c1_counterexample :
    kindsBelow (orgTree c1Input) [0, 0] ≠ some [] ∧
    kindsBelow (orgTree c1Input) [0, 0] = some [.paragraph] := by decide

/-- C1, amended.  The driver enqueues the contents of every `Block`
unconditionally (src/org.rs lines 90-106 make no exception for `src`,
`example`, `export` or `comment` types), so for the `src`-block input the
`Section` holds one `Block`, the `Block` holds a `Paragraph`, and the
`Paragraph` holds a `Text` object. -/
theorem c1_amended :
    kindsBelow (orgTree c1Input) [0] = some [.blockK] ∧
    kindsBelow (orgTree c1Input) [0, 0] = some [.paragraph] ∧
    kindsBelow (orgTree c1Input) [0, 0, 0] = some [.textK] := by decide

/-- C2, counterexample.  For the input `"\n* H"` the `Section` node has
`contents_begin = 1 > contents_end = 0`: `skip_empty_lines` moves the
contents begin past the blank first line, beyond the section end computed
from the headline position, so `begin ≤ contents_begin ≤ contents_end ≤ end`
fails on its middle inequality. -/
theorem c2_counterexample :
    nodeAt (orgTree c2Input) [0] =
      some { kind := .sectionK, b := 0, e := 1, cs := some (1, 0) } ∧
    ¬ (1 ≤ (0 : Nat)) := by decide

/-- C2, amended.  Every node of the parsed tree satisfies
`begin ≤ end ≤ N`, and every contents pair sits inside the node span
(`begin ≤ contents_begin ≤ end` and `begin ≤ contents_end ≤ end`), with
`contents_begin ≤ contents_end` guaranteed for every kind except
`Section`, whose pair may invert on whitespace-only content. -/
theorem c2_amended (t : List Char) (x : Node) (hx : x ∈ allNodesT (orgTree t)) :
    x.b ≤ x.e ∧ x.e ≤ t.length ∧ csWithin x :=
  build_mem_ok t (buildFuel t) (docNode t) (docNode_ok t) x hx

/-- C2, witness: the amended invariant at the `Document` node of the
tree for `"\n* H"`. -/
theorem c2_amended_witness :
    (docNode c2Input).b ≤ (docNode c2Input).e ∧
      (docNode c2Input).e ≤ c2Input.length :=
  ⟨(c2_amended c2Input (docNode c2Input) (by decide)).1,
   (c2_amended c2Input (docNode c2Input) (by decide)).2.1⟩

/-- C3, counterexample.  For the input `"x *b* y"` the `Paragraph`'s
children are `Text(0,7)`, `Bold(2,5)`, `Text(5,7)`: the leading `Text`
node ends at the region end, overlapping the `Bold` that follows it, so
the children's spans are not pairwise non-overlapping. -/
theorem c3_counterexample :
    spansBelow (orgTree c3Input) [0, 0] = some [(0, 7), (2, 5), (5, 7)] ∧
    spansSeparated [(0, 7), (2, 5), (5, 7)] = false := by decide

/-- C3, amended.  In every subtree of the parsed tree the children lie
inside the walked region of their parent and are ordered by begin
(`Chain' ordRel`); consecutive children are non-overlapping except that a
`Text` node may run to the region end and overlap its successors
(`Chain' (sepRel _)`). -/
theorem c3_amended (t : List Char) (st : Tree)
    (hst : st ∈ subtreesT (orgTree t)) :
    (∀ c ∈ (childrenT st).map rootND,
        (walkRegion (rootND st)).1 ≤ c.b ∧ c.b ≤ c.e ∧
          c.e ≤ (walkRegion (rootND st)).2) ∧
    List.Chain' ordRel ((childrenT st).map rootND) ∧
    List.Chain' (sepRel (walkRegion (rootND st)).2) ((childrenT st).map rootND) :=
  build_subtrees_layout t (buildFuel t) (docNode t) (docNode_ok t) st hst

/-- C3, witness: the children of the `Document` node for `"x *b* y"` are
ordered by begin. -/
theorem c3_amended_witness :
    List.Chain' ordRel ((childrenT (orgTree c3Input)).map rootND) :=
  (c3_amended c3Input (orgTree c3Input) (self_mem_subtreesT _)).2.1

/-- C4, counterexample.  For the input `"Para one.\n\nPara two.\n"` the
first `Paragraph`'s contents pair is `(0, 10)`: its `contents_end` is 10,
the start of the blank line, not 9, so the trailing newline of the last
content line is included, contrary to the claim. -/
theorem c4_counterexample :
    (nodeAt (orgTree c4Input) [0, 0]).bind Node.cs = some (0, 10) ∧
    (nodeAt (orgTree c4Input) [0, 0]).bind Node.cs ≠ some (0, 9) := by decide

/-- C4, amended.  When a paragraph is ended by an empty line its
`contents_end` is `begin + pos` where `pos` is the offset of the start of
the blank line, so the trailing newline of the last content line is
included: for `"Para one.\n\nPara two.\n"` the two paragraphs have
contents `(0, 10)` and `(11, 20)`, and byte 10 is the blank line's
newline. -/
theorem c4_amended :
    (nodeAt (orgTree c4Input) [0, 0]).bind Node.cs = some (0, 10) ∧
    (nodeAt (orgTree c4Input) [0, 1]).bind Node.cs = some (11, 20) ∧
    kindsBelow (orgTree c4Input) [0] = some [.paragraph, .paragraph] ∧
    byteAt c4Input 10 = Char.ofNat 10 := by decide

/-- C5: `Org::iter` takes `&'a mut self` with the struct's own lifetime
(src/org.rs line 35), so a well-typed program calls it at most once on a
given parser.  That single call allocates exactly one `Root` wrapping
`Document` (`rootCount = 1`, whether or not `parse()` ran first), and
the `if let Some` branch reuses an already-set `self.root` without
allocating, so the arena never holds more than one `Root`. -/
theorem c5_root_unique (t : List Char) :
    (orgIter (orgNew t)).rootCount = 1 ∧
    (orgIter (orgParse (orgNew t))).rootCount = 1 ∧
    (∀ o : Org, o.root ≠ none → orgIter o = o) := by
  refine ⟨rfl, rfl, ?_⟩
  intro o h
  cases ho : o.root with
  | none => exact absurd ho h
  | some r =>
    unfold orgIter
    rw [ho]

/-- C6, counterexample.  Rust's `is_ascii_whitespace` does not include
the vertical tab (0x0B), so for the input `"a\n\x0B\nb\n"` the line
holding only a vertical tab is not an empty line: the block walker emits
one `Paragraph` spanning it, not two. -/
theorem c6_counterexample :
    byteAt c6vInput 2 = Char.ofNat 11 ∧
    spansBelow (orgTree c6vInput) [0] = some [(0, 5)] ∧
    kindsBelow (orgTree c6vInput) [0] ≠ some [.paragraph, .paragraph] := by decide

/-- C6, amended.  The empty-line whitespace set is Rust's
`u8::is_ascii_whitespace`: space, tab, newline, form feed and carriage
return, but not vertical tab; a tab-only line splits
`"a\n\t\nb\n"` into two paragraphs while a vertical-tab-only line leaves
`"a\n\x0B\nb\n"` as one paragraph. -/
theorem c6_amended :
    isWs (Char.ofNat 11) = false ∧
    isWs ' ' = true ∧ isWs '\t' = true ∧ isWs '\n' = true ∧
    isWs (Char.ofNat 12) = true ∧ isWs (Char.ofNat 13) = true ∧
    kindsBelow (orgTree c6tInput) [0] = some [.paragraph, .paragraph] ∧
    kindsBelow (orgTree c6vInput) [0] = some [.paragraph] := by decide

/-- C7, counterexample.  For the input `" *b* x"` the pre-delimiter space
at position 0 is followed by a `Bold` parsed from position 1, yet the
emitted `Text` node spans `(0, 6)` -- its `end` is the region end, not
`begin + 1` -- so it is not a single-byte span and it overlaps the
object after it. -/
theorem c7_counterexample :
    spansBelow (orgTree c7Input) [0, 0] = some [(0, 6), (1, 4), (4, 6)] ∧
    nodeAt (orgTree c7Input) [0, 0, 0] =
      some { kind := .textK, b := 0, e := 6, val := [' '] } ∧
    ¬ ((0 : Nat) + 1 = 6) := by decide

/-- C7, amended.  When the inline walker stands on a pre-delimiter byte
and an object parses one byte later, it emits a `Text` node whose value
is the single pre-delimiter byte but whose span runs from the current
position to the region end, followed by the object node. -/
theorem c7_amended (t : List Char) (f b e : Nat) (nd : Node) (off : Nat)
    (hbe : b < e) (hpd : preDelim (byteAt t b) = true)
    (hpo : parseObject t (b + 1) e = some (nd, off)) :
    objectsWalk t (f + 1) b e =
      { kind := .textK, b := b, e := e, val := [byteAt t b] } :: nd ::
        objectsWalk t f (b + 1 + off) e := by
  conv_lhs => unfold objectsWalk
  rw [if_pos hbe]
  dsimp only
  rw [if_pos hpd, hpo]
  simp only [List.cons_append, List.nil_append]

/-- C7, witness: the amended behaviour on `" *b* x"`, whose `Bold`
parses from position 1 with consumed length 3. -/
theorem c7_amended_witness :
    objectsWalk c7Input 6 0 6 =
      { kind := .textK, b := 0, e := 6, val := [' '] } ::
        { kind := .bold, b := 1, e := 4, cs := some (2, 3) } ::
          objectsWalk c7Input 5 4 6 :=
  c7_amended c7Input 5 0 6 { kind := .bold, b := 1, e := 4, cs := some (2, 3) } 3
    (by decide) (by decide) (by decide)

/-- C8: `parse()` is idempotent -- a second call yields the same state,
and it is a no-op whenever `finish()` already holds. -/
theorem c8_parse_idempotent (o : Org) :
    orgParse (orgParse o) = orgParse o ∧
      (orgFinish o = true → orgParse o = o) := by
  obtain ⟨t, dc, rc, rt⟩ := o
  constructor
  · simp only [orgParse, orgFinish]
    split_ifs with h1 h2 <;> rfl
  · intro h
    simp only [orgParse, if_pos h]

/-- C9: every walker loop advances `begin` by at least one byte per
iteration, so on a region of length `e - b` each walker's fuel recursion
is stable at fuel `e - b`, and the whole driver's recursion is stable at
fuel linear in the input length: `parse()` terminates in linearly many
steps. -/
theorem c9_termination (t : List Char) (f b e : Nat) (he : e ≤ t.length)
    (hf : e - b ≤ f) :
    elementsWalk t f b e = elementsWalk t (e - b) b e ∧
    objectsWalk t f b e = objectsWalk t (e - b) b e ∧
    headlinesLoop t f b e = headlinesLoop t (e - b) b e ∧
    (∀ ind, listItemsWalk t ind f b e = listItemsWalk t ind (e - b) b e) ∧
    (buildFuel t ≤ f → build t f (docNode t) = orgTree t) :=
  ⟨elementsWalk_mono t f (e - b) b e he hf le_rfl,
   objectsWalk_mono t f (e - b) b e hf le_rfl,
   headlinesLoop_mono t f (e - b) b e he hf le_rfl,
   fun ind => listItemsWalk_mono t ind f (e - b) b e he hf le_rfl,
   fun hbf => build_stable t f (buildFuel t) (docNode t) (docNode_ok t)
     (by rw [measureOf_docNode]; unfold buildFuel at hbf; omega)
     (by rw [measureOf_docNode]; unfold buildFuel; omega)⟩

/-- C9, witness: the block walker over the whole of `"* A\nx\n"` is
already stable at fuel 6. -/
theorem c9_witness :
    elementsWalk ("* A\nx\n".toList) 9 0 6 =
      elementsWalk ("* A\nx\n".toList) 6 0 6 :=
  (c9_termination ("* A\nx\n".toList) 9 0 6 (by decide) (by decide)).1

/-- C10: on the empty input `parse()` creates no nodes: the `Document`
node keeps `begin = end = 0` with no children, and `finish()` still
returns `false` after `parse()`. -/
theorem c10_empty_input :
    (orgParse (orgNew [])).docChildren.isEmpty = true ∧
    orgFinish (orgParse (orgNew [])) = false ∧
    allNodesT (orgTree []) = [{ kind := .doc, b := 0, e := 0 }] ∧
    (docNode []).b = 0 ∧ (docNode []).e = 0 := by decide

end Orgize
